import Mathlib

/-!
The fetch loop of `getter.go` (gmail-data-getter)

A shallow embedding of the fetch loop of `main` in
`IR_Final/gmail-data-getter/getter.go` (source lines 108-191), together with
models of the three Go standard-library functions the loop calls
(`base64.URLEncoding.DecodeString`, `strings.TrimSpace`, `strings.Contains`)
and of `strconv.FormatInt`.

Conventions.
* A Go `string` is a sequence of bytes; it is a `List Nat` here.
* Every `fmt.Fprintln(os.Stdout, ...)` statement of the loop is one
  constructor of `Line`; `Line.render` gives the bytes the statement writes
  (without the final newline) and `stdout` the byte stream of a list of
  lines.  The writes to standard error (`log.Printf`, `println`) are not part
  of the output and are not modelled.
* `count` and `limit` are the two local variables of `main`; the loop is
  embedded for arbitrary initial values and `main` instantiates them with
  100 and 125.
* A run is driven by the list of responses the mail service gives to the
  successive `List` calls; each response carries, for every listed id, the
  result of the `Get` call on it (`none` is a failed call, which ends the
  process through `log.Fatalf`).  `msg.Payload` and `part.Body` are taken to
  be present, as they are in a `full` format response.
* The library functions are models.  The decoder is shown to invert the
  base64url encoding of RFC 4648 (`decodeString_encodeString`), the trimming
  to remove exactly a leading and a trailing run of Unicode white space
  (`trimSpace_spec`), and the printing of an integer to be read back by
  `parseInt` (`parseInt_formatInt`).
-/

set_option maxRecDepth 1000000

namespace Getter

/-- A Go string, as its bytes. -/
abbrev Bytes := List Nat

/-- UTF-8 encoding of one character. -/
def utf8EncodeChar (c : Char) : Bytes :=
  let n := c.toNat
  if n < 0x80 then [n]
  else if n < 0x800 then [0xC0 + n / 64, 0x80 + n % 64]
  else if n < 0x10000 then [0xE0 + n / 4096, 0x80 + n / 64 % 64, 0x80 + n % 64]
  else [0xF0 + n / 262144, 0x80 + n / 4096 % 64, 0x80 + n / 64 % 64, 0x80 + n % 64]

/-- The Go string written as the literal `s`. -/
def goString (s : String) : Bytes :=
  (s.toList.map utf8EncodeChar).foldr (fun a b => a ++ b) []

/-! ## `encoding/base64`: `URLEncoding.DecodeString` -/

/-- The decode map of `base64.URLEncoding`, alphabet `A-Z a-z 0-9 - _`;
`none` stands for the entry `0xff` of the table. -/
def decodeMap (b : Nat) : Option Nat :=
  if 65 ≤ b ∧ b ≤ 90 then some (b - 65)
  else if 97 ≤ b ∧ b ≤ 122 then some (b - 97 + 26)
  else if 48 ≤ b ∧ b ≤ 57 then some (b - 48 + 52)
  else if b = 45 then some 62
  else if b = 95 then some 63
  else none

/-- Skips `'\n'` and `'\r'`. -/
def skipNewlines : Bytes → Bytes
  | [] => []
  | b :: rest => if b = 10 ∨ b = 13 then skipNewlines rest else b :: rest

/-- The bytes one quantum contributes: the six-bit values `dbuf` (missing ones
are zero) are packed into 24 bits and the first `dlen - 1` bytes are kept. -/
def quantumBytes (dbuf : List Nat) (dlen : Nat) : Bytes :=
  let val := (dbuf.getD 0 0 <<< 18) ||| (dbuf.getD 1 0 <<< 12) |||
    (dbuf.getD 2 0 <<< 6) ||| dbuf.getD 3 0
  [(val >>> 16) % 256, (val >>> 8) % 256, val % 256].take (dlen - 1)

/-- The decoding loop of `Encoding.Decode` with `decodeQuantum` inlined, for
the padded, non-strict `URLEncoding`: `j` is the position inside the current
quantum, `dbuf` its six-bit values so far, `acc` the bytes already written.
The result is the bytes written and whether a `CorruptInputError` is
returned.  On an error the bytes written before it are kept. -/
def decodeAux : Bytes → Nat → List Nat → Bytes → Bytes × Bool
  | [], j, _, acc => (acc, decide (j ≠ 0))
  | c :: src, j, dbuf, acc =>
    match decodeMap c with
    | some v =>
      if j = 3 then decodeAux src 0 [] (acc ++ quantumBytes (dbuf ++ [v]) 4)
      else decodeAux src (j + 1) (dbuf ++ [v]) acc
    | none =>
      if c = 10 ∨ c = 13 then decodeAux src j dbuf acc
      else if c ≠ 61 then (acc, true)
      else if j = 0 ∨ j = 1 then (acc, true)
      else if j = 2 then
        match skipNewlines src with
        | [] => (acc, true)
        | d :: src2 =>
          if d ≠ 61 then (acc, true)
          else (acc ++ quantumBytes dbuf 2, decide (skipNewlines src2 ≠ []))
      else (acc ++ quantumBytes dbuf 3, decide (skipNewlines src ≠ []))

/-- `base64.URLEncoding.DecodeString(s)`: the decoded bytes `dbuf[:n]` and
whether the returned error is non-nil. -/
def decodeString (s : Bytes) : Bytes × Bool := decodeAux s 0 [] []

/-- The character of the URL alphabet for a six-bit value. -/
def encodeChar (i : Nat) : Nat :=
  if i < 26 then 65 + i
  else if i < 52 then 97 + (i - 26)
  else if i < 62 then 48 + (i - 52)
  else if i = 62 then 45
  else 95

/-- The base64url encoding, with padding, of RFC 4648, section 5. -/
def encodeString : Bytes → Bytes
  | [] => []
  | [a] => [encodeChar (a / 4), encodeChar (a % 4 * 16), 61, 61]
  | [a, b] =>
    [encodeChar (a / 4), encodeChar (a % 4 * 16 + b / 16), encodeChar (b % 16 * 4), 61]
  | a :: b :: c :: rest =>
    encodeChar (a / 4) :: encodeChar (a % 4 * 16 + b / 16) ::
      encodeChar (b % 16 * 4 + c / 64) :: encodeChar (c % 64) :: encodeString rest

/-! ## `strings.TrimSpace`, `strings.Contains`, `strconv.FormatInt` -/

/-- The one-byte white space of `unicode.IsSpace`: `\t \n \v \f \r` and space. -/
def isSpace1 (b : Nat) : Bool :=
  b = 9 ∨ b = 10 ∨ b = 11 ∨ b = 12 ∨ b = 13 ∨ b = 32

/-- The two-byte white space: U+0085 and U+00A0. -/
def isSpace2 (b c : Nat) : Bool :=
  b = 0xC2 ∧ (c = 0x85 ∨ c = 0xA0)

/-- The three-byte white space: U+1680, U+2000..U+200A, U+2028, U+2029,
U+202F, U+205F, U+3000. -/
def isSpace3 (b c d : Nat) : Bool :=
  (b = 0xE1 ∧ c = 0x9A ∧ d = 0x80) ∨
  (b = 0xE2 ∧ c = 0x80 ∧ ((0x80 ≤ d ∧ d ≤ 0x8A) ∨ d = 0xA8 ∨ d = 0xA9 ∨ d = 0xAF)) ∨
  (b = 0xE2 ∧ c = 0x81 ∧ d = 0x9F) ∨
  (b = 0xE3 ∧ c = 0x80 ∧ d = 0x80)

/-- Removes the white-space runes at the front of `s`. -/
def trimLeft : Bytes → Bytes
  | [] => []
  | [b] => if isSpace1 b then [] else [b]
  | [b, c] =>
    if isSpace1 b then trimLeft [c]
    else if isSpace2 b c then []
    else [b, c]
  | b :: c :: d :: rest =>
    if isSpace1 b then trimLeft (c :: d :: rest)
    else if isSpace2 b c then trimLeft (d :: rest)
    else if isSpace3 b c d then trimLeft rest
    else b :: c :: d :: rest

/-- Removes the white-space runes at the front of a reversed string, that is,
at the end of the string. -/
def trimLeftRev : Bytes → Bytes
  | [] => []
  | [b] => if isSpace1 b then [] else [b]
  | [c, b] =>
    if isSpace1 c then trimLeftRev [b]
    else if isSpace2 b c then []
    else [c, b]
  | d :: c :: b :: rest =>
    if isSpace1 d then trimLeftRev (c :: b :: rest)
    else if isSpace2 c d then trimLeftRev (b :: rest)
    else if isSpace3 b c d then trimLeftRev rest
    else d :: c :: b :: rest

/-- `strings.TrimSpace(s)`: `s` without its leading and trailing white space,
as defined by Unicode. -/
def trimSpace (s : Bytes) : Bytes :=
  (trimLeftRev (trimLeft s).reverse).reverse

/-- `strings.HasPrefix(s, sub)`. -/
def hasPrefix : Bytes → Bytes → Bool
  | _, [] => true
  | [], _ :: _ => false
  | a :: s, b :: sub => a = b && hasPrefix s sub

/-- `strings.Contains(s, sub)`. -/
def contains : Bytes → Bytes → Bool
  | [], sub => hasPrefix [] sub
  | a :: s, sub => hasPrefix (a :: s) sub || contains s sub

/-- `strconv.FormatInt(n, 10)`. -/
def formatInt (n : Int) : Bytes :=
  if n < 0 then 45 :: (Nat.toDigits 10 n.natAbs).map Char.toNat
  else (Nat.toDigits 10 n.natAbs).map Char.toNat

/-! ## Data model -/

/-- One `MessagePartHeader`. -/
structure Header where
  name : Bytes
  value : Bytes
deriving DecidableEq, Repr

/-- One entry of `msg.Payload.Parts`: its `PartId` and its `Body.Data`. -/
structure MessagePart where
  partId : Bytes
  data : Bytes
deriving DecidableEq, Repr

/-- What the loop reads of a `gmail.Message`: `SizeEstimate`, `LabelIds`,
`Payload.Headers` and `Payload.Parts`. -/
structure Message where
  sizeEstimate : Int
  labelIds : List Bytes
  headers : List Header
  parts : List MessagePart
deriving DecidableEq, Repr

/-- One `ListMessagesResponse`: for every listed id the result of the `Get`
call on it (`none` when the call fails), and `NextPageToken`. -/
structure ListResponse where
  messages : List (Option Message)
  nextPageToken : Bytes
deriving DecidableEq, Repr

/-- One line written to standard output, by the statement that writes it. -/
inductive Line where
  | I (n : Int)
  | L (code : Nat)
  | D (value : Bytes)
  | F (value : Bytes)
  | S (value : Bytes)
  | M
  | body (text : Bytes)
  | blank
deriving DecidableEq, Repr

/-- The bytes of a line, without the newline `Fprintln` appends. -/
def Line.render : Line → Bytes
  | Line.I n => goString ".I " ++ formatInt n
  | Line.L code => goString ".L " ++ formatInt code
  | Line.D value => goString ".D " ++ value
  | Line.F value => goString ".F " ++ value
  | Line.S value => goString ".S " ++ value
  | Line.M => goString ".M"
  | Line.body text => text
  | Line.blank => []

/-- The variables of the loop (`total`, `count`), the output written so far,
and three observations of the run: the number of `Get` calls and of `List`
calls issued, and whether `log.Fatalf` ended the process. -/
structure State where
  total : Int
  count : Int
  out : List Line
  fetched : Nat
  listed : Nat
  fatal : Bool
deriving DecidableEq, Repr

/-- `fmt.Fprintln(os.Stdout, l)`. -/
def State.println (st : State) (l : Line) : State :=
  { st with out := st.out ++ [l] }

/-- Addition on `int64`, wrapping around. -/
def wrapInt64 (x : Int) : Int := (x + 2 ^ 63) % 2 ^ 64 - 2 ^ 63

/-! ## The loop -/

/-- Body of `for _, label := range msg.LabelIds` (source lines 147-162); the
boolean is `hasLabel`. -/
def labelStep (acc : State × Bool) (label : Bytes) : State × Bool :=
  if contains label (goString "CATEGORY_FORUMS") then (acc.1.println (Line.L 0), true)
  else if contains label (goString "CATEGORY_PERSONAL") then (acc.1.println (Line.L 1), true)
  else if contains label (goString "CATEGORY_PROMOTIONS") then (acc.1.println (Line.L 2), true)
  else if contains label (goString "CATEGORY_SOCIAL") then (acc.1.println (Line.L 3), true)
  else if contains label (goString "CATEGORY_UPDATES") then (acc.1.println (Line.L 4), true)
  else acc

/-- The label loop (source lines 144-164), starting with `hasLabel := false`. -/
def labelLoop (labels : List Bytes) (st : State) : State × Bool :=
  labels.foldl labelStep (st, false)

/-- Body of `for _, h := range msg.Payload.Headers` (source lines 171-177). -/
def headerStep (st : State) (h : Header) : State :=
  if h.name = goString "Date" then st.println (Line.D h.value)
  else if h.name = goString "From" then st.println (Line.F h.value)
  else if h.name = goString "Subject" then st.println (Line.S h.value)
  else st

/-- The header loop (source lines 170-178). -/
def headerLoop (headers : List Header) (st : State) : State :=
  headers.foldl headerStep st

/-- Body of `for _, part := range msg.Payload.Parts` (source lines 137-184).
The `continue` of line 167 leaves the body before the `Fprintln` of
line 183. -/
def processPart (limit : Int) (msg : Message) (st : State) (part : MessagePart) : State :=
  if st.count < limit then
    if part.partId = goString "0" then
      let s := (decodeString part.data).1
      let finalString := trimSpace s
      if finalString ≠ [] then
        let st1 := st.println (Line.I st.count)
        let st2 := { st1 with count := st1.count + 1 }
        let r := labelLoop msg.labelIds st2
        if !r.2 then r.1
        else
          let st3 := headerLoop msg.headers r.1
          let st4 := st3.println Line.M
          let st5 := st4.println (Line.body finalString)
          st5.println Line.blank
      else st.println Line.blank
    else st.println Line.blank
  else st

/-- Body of `for _, m := range r.Messages` after a successful `Get`
(source lines 134-185). -/
def processMessage (limit : Int) (msg : Message) (st : State) : State :=
  msg.parts.foldl (processPart limit msg)
    { st with total := wrapInt64 (st.total + msg.sizeEstimate) }

/-- The loop `for _, m := range r.Messages` (source lines 129-186): every id
is fetched; a failed `Get` ends the process. -/
def processMessages (limit : Int) : List (Option Message) → State → State
  | [], st => st
  | none :: _, st => { st with fetched := st.fetched + 1, fatal := true }
  | some msg :: rest, st =>
    processMessages limit rest
      (processMessage limit msg { st with fetched := st.fetched + 1 })

/-- The outer `for` (source lines 112-191) over the responses to the
successive `List` calls (`none` is a failed call).  The loop is left when
`NextPageToken` is empty or `count >= limit`; when the responses given are
used up the state reached so far is returned. -/
def runPages (limit : Int) : List (Option ListResponse) → State → State
  | [], st => st
  | none :: _, st => { st with listed := st.listed + 1, fatal := true }
  | some r :: rest, st =>
    let st1 := processMessages limit r.messages { st with listed := st.listed + 1 }
    if st1.fatal then st1
    else if r.nextPageToken = [] ∨ st1.count ≥ limit then st1
    else runPages limit rest st1

/-- The state at source line 112: `total` zero, `count` at its start value. -/
def initState (start : Int) : State :=
  { total := 0, count := start, out := [], fetched := 0, listed := 0, fatal := false }

/-- The fetch loop with `count := start` and `limit := limit`. -/
def run (start limit : Int) (pages : List (Option ListResponse)) : State :=
  runPages limit pages (initState start)

/-- The fetch loop of `main`: `count := 100`, `limit := 125`. -/
def main (pages : List (Option ListResponse)) : State := run 100 125 pages

/-! ## Reading the lines written -/

/-- The sequence ids on the lines written by the statement of source line 142
(`Line.I`), in output order.  The `.I <n>` lines of the byte stream, which the
free text of a body or header value can also produce, are read by `outputIds`. -/
def seqIds : List Line → List Int
  | [] => []
  | Line.I n :: ls => n :: seqIds ls
  | _ :: ls => seqIds ls

/-- The category codes on the `.L` lines, in output order. -/
def labelCodes : List Line → List Nat
  | [] => []
  | Line.L c :: ls => c :: labelCodes ls
  | _ :: ls => labelCodes ls

/-- Whether a line is an `.I` line. -/
def Line.isI : Line → Bool
  | Line.I _ => true
  | _ => false

/-- Whether a line is one of the header lines `.D`, `.F`, `.S`. -/
def Line.isHeader : Line → Bool
  | Line.D _ => true
  | Line.F _ => true
  | Line.S _ => true
  | _ => false

/-! ## Reference descriptions used in the statements -/

/-- The five category markers, in the priority order Forums, Personal,
Promotions, Social, Updates; the position of a marker is its category code. -/
def markers : List Bytes :=
  [goString "CATEGORY_FORUMS", goString "CATEGORY_PERSONAL", goString "CATEGORY_PROMOTIONS",
   goString "CATEGORY_SOCIAL", goString "CATEGORY_UPDATES"]

/-- The code of the first marker, in priority order, that `label` contains. -/
def firstMarker (label : Bytes) : Option Nat :=
  markers.findIdx? (fun m => contains label m)

/-- The line a header contributes: `.D`, `.F` or `.S` for a header named
exactly `Date`, `From` or `Subject`, none otherwise. -/
def headerLine (h : Header) : Option Line :=
  if h.name = goString "Date" then some (Line.D h.value)
  else if h.name = goString "From" then some (Line.F h.value)
  else if h.name = goString "Subject" then some (Line.S h.value)
  else none

/-- Whether a part is a part `"0"` whose decoded, trimmed text is non-empty. -/
def hasBody (p : MessagePart) : Bool :=
  p.partId = goString "0" ∧ trimSpace (decodeString p.data).1 ≠ []

/-- Whether some label id of the message contains a category marker. -/
def hasCategory (msg : Message) : Bool :=
  msg.labelIds.any (fun l => (firstMarker l).isSome)

/-! ## The lines of a record -/

/-- The lines of a complete record of `msg` with sequence id `n` and body
`text`. -/
def recordLines (msg : Message) (n : Int) (text : Bytes) : List Line :=
  [Line.I n] ++ (msg.labelIds.filterMap firstMarker).map Line.L ++
    msg.headers.filterMap headerLine ++ [Line.M, Line.body text, Line.blank]

/-! ## The invariant of the sequence ids -/

/-- From `st` to `st'` the loop wrote `k` `.I` lines, numbered from the
`count` of `st` on, and `count` went up by `k`; when `k` is not zero the
`count` reached is at most `limit`. -/
def Advances (limit : Int) (st st' : State) : Prop :=
  ∃ k : Nat, st'.count = st.count + k ∧
    seqIds st'.out = seqIds st.out ++ (List.range k).map (fun (i : Nat) => st.count + (i : Int)) ∧
    (k = 0 ∨ st'.count ≤ limit)

/-! ## The bodies a run can reach -/

/-- The number of parts of a message that carry a body. -/
def bodiesOf (msg : Message) : Nat := msg.parts.countP hasBody

/-- The bodies among the messages of a page up to the first failed `Get`. -/
def availableMsgs : List (Option Message) → Nat
  | [] => 0
  | none :: _ => 0
  | some msg :: rest => bodiesOf msg + availableMsgs rest

/-- The bodies the run can reach: those of the pages up to the first failed
call and up to the first page with an empty `NextPageToken`. -/
def available : List (Option ListResponse) → Nat
  | [] => 0
  | none :: _ => 0
  | some r :: rest =>
    availableMsgs r.messages +
      (if r.messages.all Option.isSome ∧ r.nextPageToken ≠ [] then available rest else 0)

/-- The bodies of the reachable messages that also carry a category label. -/
def qualifyingMsgs : List (Option Message) → Nat
  | [] => 0
  | none :: _ => 0
  | some msg :: rest => (if hasCategory msg then bodiesOf msg else 0) + qualifyingMsgs rest

/-- The qualifying bodies the run can reach, over the same pages as `available`. -/
def qualifying : List (Option ListResponse) → Nat
  | [] => 0
  | none :: _ => 0
  | some r :: rest =>
    qualifyingMsgs r.messages +
      (if r.messages.all Option.isSome ∧ r.nextPageToken ≠ [] then qualifying rest else 0)

/-- The total after the sizes of the fetched messages of a page are added. -/
def addSizes : Int → List (Option Message) → Int
  | t, [] => t
  | t, none :: _ => t
  | t, some msg :: rest => addSizes (wrapInt64 (t + msg.sizeEstimate)) rest

/-- The counter after `n` bodies met from counter `c`: it goes up by one per
body while it is below `limit`. -/
def advance (limit c : Int) (n : Nat) : Int := max c (min limit (c + n))

/-- The state after the messages of the response `r` are processed. -/
def afterPage (limit : Int) (r : ListResponse) (st : State) : State :=
  processMessages limit r.messages { st with listed := st.listed + 1 }

/-! ## Concrete messages and mailboxes -/

/-- The message of the first scenario: labels `CATEGORY_SOCIAL` and `INBOX`,
one part `"0"` holding the base64url encoding of `"Hello "`, headers `Date`,
`From`, `Subject`. -/
def scenarioMessage (size : Int) : Message :=
  { sizeEstimate := size
    labelIds := [goString "CATEGORY_SOCIAL", goString "INBOX"]
    headers := [⟨goString "Date", goString "Mon"⟩, ⟨goString "From", goString "a@b.com"⟩,
      ⟨goString "Subject", goString "Hi"⟩]
    parts := [⟨goString "0", goString "SGVsbG8g"⟩] }

/-- The message of the second scenario: the only label is `INBOX`; the body
is as in the first scenario. -/
def inboxOnlyMessage : Message :=
  { scenarioMessage 2048 with labelIds := [goString "INBOX"] }

/-- The first scenario with the label ids in the order `CATEGORY_UPDATES`,
`CATEGORY_FORUMS`. -/
def twoCategoryMessage : Message :=
  { scenarioMessage 2048 with
    labelIds := [goString "CATEGORY_UPDATES", goString "CATEGORY_FORUMS"] }

/-- The first scenario with the headers `Subject: Hi`, `Date: Mon`,
`Date: Tue`. -/
def repeatedDateMessage : Message :=
  { scenarioMessage 2048 with
    headers := [⟨goString "Subject", goString "Hi"⟩, ⟨goString "Date", goString "Mon"⟩,
      ⟨goString "Date", goString "Tue"⟩] }

/-- The first scenario with the part data `SGVsbG8h!`: the encoding of
`Hello!` followed by a byte outside the alphabet. -/
def brokenDataMessage : Message :=
  { scenarioMessage 2048 with parts := [⟨goString "0", goString "SGVsbG8h!"⟩] }

/-- The first scenario with the part data `!SGVsbG8h`: the decoding fails on
the first byte. -/
def brokenStartMessage : Message :=
  { scenarioMessage 2048 with parts := [⟨goString "0", goString "!SGVsbG8h"⟩] }

/-- A message whose part `"0"` decodes to white space only (`"IAo="` is the
encoding of a space and a newline) and which has a second part `"1"`. -/
def blankBodyMessage : Message :=
  { scenarioMessage 2048 with
    parts := [⟨goString "0", goString "IAo="⟩, ⟨goString "1", goString "SGVsbG8g"⟩] }

/-- Two pages of two qualifying messages each, of sizes 10, 20, 30, 40. -/
def twoPages : List (Option ListResponse) :=
  [some ⟨[some (scenarioMessage 10), some (scenarioMessage 20)], goString "page2"⟩,
   some ⟨[some (scenarioMessage 30), some (scenarioMessage 40)], []⟩]

/-- One page of 125 qualifying messages. -/
def fullMailbox : List (Option ListResponse) :=
  [some ⟨List.replicate 125 (some (scenarioMessage 2048)), []⟩]

/-! ## White space, described by its code points -/

/-- The code points for which `unicode.IsSpace` holds (the Unicode property
White_Space). -/
def spaceRunes : List Nat :=
  [0x09, 0x0A, 0x0B, 0x0C, 0x0D, 0x20, 0x85, 0xA0, 0x1680, 0x2000, 0x2001, 0x2002, 0x2003,
   0x2004, 0x2005, 0x2006, 0x2007, 0x2008, 0x2009, 0x200A, 0x2028, 0x2029, 0x202F, 0x205F,
   0x3000]

/-- The UTF-8 encodings of the white-space code points. -/
def spaceEncodings : List Bytes :=
  spaceRunes.map (fun n => utf8EncodeChar (Char.ofNat n))

/-- Whether the text begins with a white-space rune. -/
def startsWithSpace (t : Bytes) : Bool :=
  spaceEncodings.any (fun r => hasPrefix t r)

/-- Whether the text ends with a white-space rune. -/
def endsWithSpace (t : Bytes) : Bool :=
  spaceEncodings.any (fun r => hasPrefix t.reverse r.reverse)

/-- The texts made of white-space runes only. -/
inductive AllSpace : Bytes → Prop where
  | nil : AllSpace []
  | cons {r s : Bytes} (hr : r ∈ spaceEncodings) (hs : AllSpace s) : AllSpace (r ++ s)

/-! ## The output as a byte stream -/

/-- The bytes on standard output: every line written, followed by a newline. -/
def stdout : List Line → Bytes
  | [] => []
  | l :: ls => l.render ++ 10 :: stdout ls

/-- The lines of a byte stream from the line `cur` under way on. -/
def splitLinesAux : Bytes → Bytes → List Bytes
  | cur, [] => if cur = [] then [] else [cur]
  | cur, b :: rest =>
    if b = 10 then cur :: splitLinesAux [] rest else splitLinesAux (cur ++ [b]) rest

/-- The lines of a byte stream, without their newlines. -/
def splitLines (s : Bytes) : List Bytes := splitLinesAux [] s

/-- The value of a run of decimal digits read after the value `acc`; none when
a byte is not a digit. -/
def parseDigits : Bytes → Nat → Option Nat
  | [], acc => some acc
  | b :: bs, acc =>
    if 48 ≤ b ∧ b ≤ 57 then parseDigits bs (acc * 10 + (b - 48)) else none

/-- The value of a non-empty run of decimal digits. -/
def parseNat (bs : Bytes) : Option Nat :=
  if bs = [] then none else parseDigits bs 0

/-- The value of a decimal integer: digits, after an optional minus sign. -/
def parseInt (bs : Bytes) : Option Int :=
  if bs.head? = some 45 then (parseNat bs.tail).map (fun (n : Nat) => -(n : Int))
  else (parseNat bs).map (fun (n : Nat) => (n : Int))

/-- The sequence id of a line of the form `.I <n>`; none for any other line. -/
def parseSeqLine (l : Bytes) : Option Int :=
  if hasPrefix l (goString ".I ") then parseInt (l.drop 3) else none

/-- The sequence ids read from the `.I <n>` lines of a byte stream, in order. -/
def outputIds (s : Bytes) : List Int := (splitLines s).filterMap parseSeqLine

/-! ## Free text without `.I <n>` lines -/

/-- Whether no line of the text is of the form `.I <n>`. -/
def cleanText (t : Bytes) : Bool :=
  (splitLines (t ++ [10])).all (fun l => (parseSeqLine l).isNone)

/-- Whether the free text a line carries (a header value, a body) has no line
of the form `.I <n>`. -/
def Line.clean : Line → Bool
  | Line.D value => cleanText value
  | Line.F value => cleanText value
  | Line.S value => cleanText value
  | Line.body text => cleanText text
  | _ => true

/-- Whether the `Date`, `From` and `Subject` header values of a message and
the bodies of its parts have no line of the form `.I <n>`. -/
def cleanMessage (msg : Message) : Bool :=
  (msg.headers.filterMap headerLine).all Line.clean &&
    msg.parts.all (fun p => cleanText (trimSpace (decodeString p.data).1))

/-- Whether every fetched message of every response is clean. -/
def cleanPages (pages : List (Option ListResponse)) : Bool :=
  pages.all (fun r? =>
    match r? with
    | none => true
    | some r => r.messages.all (fun m? =>
      match m? with
      | none => true
      | some msg => cleanMessage msg))

/-! ## Complete records -/

/-- The number of `.M` lines: the records written in full. -/
def recordCount : List Line → Nat
  | [] => 0
  | Line.M :: ls => recordCount ls + 1
  | _ :: ls => recordCount ls

/-- Whether every fetched message with a body has a category label. -/
def allCategorised (pages : List (Option ListResponse)) : Bool :=
  pages.all (fun r? =>
    match r? with
    | none => true
    | some r => r.messages.all (fun m? =>
      match m? with
      | none => true
      | some msg => msg.parts.all (fun p => !hasBody p) || hasCategory msg))

/-! ## Further concrete messages -/

/-- Bytes repeated `n` times. -/
def repeatBytes (n : Nat) (b : Bytes) : Bytes :=
  (List.replicate n b).foldr (fun a acc => a ++ acc) []

/-- A qualifying message whose body is 126 lines `.I 1`: the data is 42 times
the encoding of three such lines. -/
def manyLinesMessage : Message :=
  { scenarioMessage 2048 with
    parts := [⟨goString "0", repeatBytes 42 (goString "LkkgMQouSSAxCi5JIDEK")⟩] }

/-- A qualifying message whose body is `Hi`, a newline, `.I 999`. -/
def embeddedIdMessage : Message :=
  { scenarioMessage 2048 with parts := [⟨goString "0", goString "SGkKLkkgOTk5"⟩] }

/-- The first scenario with the body ` \tHello \n`: white space on both sides. -/
def paddedBodyMessage : Message :=
  { scenarioMessage 2048 with parts := [⟨goString "0", goString "IAlIZWxsbyAK"⟩] }

/-! # Theorems -/

/-! ## The library models on known values -/

/-- The test vectors of RFC 4648, section 10, which the two base64 alphabets
share. -/
theorem decodeString_rfc4648 :
    decodeString (goString "") = (goString "", false) ∧
    decodeString (goString "Zg==") = (goString "f", false) ∧
    decodeString (goString "Zm8=") = (goString "fo", false) ∧
    decodeString (goString "Zm9v") = (goString "foo", false) ∧
    decodeString (goString "Zm9vYg==") = (goString "foob", false) ∧
    decodeString (goString "Zm9vYmE=") = (goString "fooba", false) ∧
    decodeString (goString "Zm9vYmFy") = (goString "foobar", false) := by
  decide

/-- Corrupt inputs: the error is reported and the bytes written before it are
returned; the characters `+` and `/` of the standard alphabet are not in the
URL alphabet, `-` and `_` are. -/
theorem decodeString_corrupt :
    decodeString (goString "Zm9vYg=") = (goString "foo", true) ∧
    decodeString (goString "Zm9vY") = (goString "foo", true) ∧
    decodeString (goString "Zm9v!mFy") = (goString "foo", true) ∧
    decodeString (goString "Zg==Zm9v") = (goString "f", true) ∧
    decodeString (goString "+/+/") = (goString "", true) ∧
    decodeString (goString "-_-_") = ([251, 255, 191], false) ∧
    decodeString (goString "Zm9v\nYmFy\r\n") = (goString "foobar", false) := by
  decide

/-- White space is removed at both ends only, also when it is not ASCII. -/
theorem trimSpace_values :
    trimSpace (goString " \t\r\n a b \n") = goString "a b" ∧
    trimSpace (goString "  x　\u0085") = goString "x" ∧
    trimSpace (goString " \n\t ") = goString "" ∧
    trimSpace (goString "é ") = goString "é" ∧
    trimSpace [0x20, 0x80, 0x20] = [0x80] := by
  decide

/-- Sub-string search. -/
theorem contains_values :
    contains (goString "CATEGORY_SOCIAL") (goString "CATEGORY_SOCIAL") = true ∧
    contains (goString "xCATEGORY_SOCIALy") (goString "CATEGORY_SOCIAL") = true ∧
    contains (goString "category_social") (goString "CATEGORY_SOCIAL") = false ∧
    contains (goString "INBOX") (goString "") = true ∧
    contains (goString "") (goString "INBOX") = false := by
  decide

/-- Decimal rendering. -/
theorem formatInt_values :
    formatInt 0 = goString "0" ∧ formatInt 100 = goString "100" ∧
    formatInt 224 = goString "224" ∧ formatInt (-7) = goString "-7" := by
  decide

/-! ## The decoder inverts the encoding -/

theorem decodeMap_encodeChar : ∀ i < 64, decodeMap (encodeChar i) = some i := by
  decide

theorem pack_eq (i0 i1 i2 i3 : Nat) (h1 : i1 < 64) (h2 : i2 < 64) (h3 : i3 < 64) :
    (i0 <<< 18) ||| (i1 <<< 12) ||| (i2 <<< 6) ||| i3 =
      i0 * 262144 + i1 * 4096 + i2 * 64 + i3 := by
  have e1 : (i0 <<< 18) ||| (i1 <<< 12) = 2 ^ 12 * (i0 * 64 + i1) := by
    have := Nat.mul_add_lt_is_or (i := 18) (b := i1 * 4096) (by norm_num; omega) i0
    rw [Nat.shiftLeft_eq, Nat.shiftLeft_eq]
    norm_num at this ⊢
    rw [Nat.mul_comm i0 262144, ← this]
    omega
  have e2 : 2 ^ 12 * (i0 * 64 + i1) ||| (i2 <<< 6) = 2 ^ 6 * ((i0 * 64 + i1) * 64 + i2) := by
    have := Nat.mul_add_lt_is_or (i := 12) (b := i2 * 64) (by norm_num; omega) (i0 * 64 + i1)
    rw [Nat.shiftLeft_eq]
    norm_num at this ⊢
    rw [← this]
    omega
  have e3 : 2 ^ 6 * ((i0 * 64 + i1) * 64 + i2) ||| i3 =
      2 ^ 6 * ((i0 * 64 + i1) * 64 + i2) + i3 :=
    (Nat.mul_add_lt_is_or (i := 6) (by norm_num; omega) _).symm
  rw [e1, e2, e3]
  norm_num
  omega

theorem quantumBytes_four (a b c : Nat) (ha : a < 256) (hb : b < 256) (hc : c < 256) :
    quantumBytes [a / 4, a % 4 * 16 + b / 16, b % 16 * 4 + c / 64, c % 64] 4 = [a, b, c] := by
  unfold quantumBytes
  simp only [List.getD_cons_zero, List.getD_cons_succ]
  rw [pack_eq _ _ _ _ (by omega) (by omega) (by omega)]
  simp only [Nat.shiftRight_eq_div_pow]
  norm_num
  refine ⟨?_, ?_, ?_⟩ <;> omega

theorem quantumBytes_three (a b : Nat) (ha : a < 256) (hb : b < 256) :
    quantumBytes [a / 4, a % 4 * 16 + b / 16, b % 16 * 4] 3 = [a, b] := by
  unfold quantumBytes
  simp only [List.getD_cons_zero, List.getD_cons_succ, List.getD_nil]
  rw [pack_eq _ _ _ _ (by omega) (by omega) (by omega)]
  simp only [Nat.shiftRight_eq_div_pow]
  norm_num
  refine ⟨?_, ?_⟩ <;> omega

theorem quantumBytes_two (a : Nat) (ha : a < 256) :
    quantumBytes [a / 4, a % 4 * 16] 2 = [a] := by
  unfold quantumBytes
  simp only [List.getD_cons_zero, List.getD_cons_succ, List.getD_nil]
  rw [pack_eq _ _ _ _ (by omega) (by omega) (by omega)]
  simp only [Nat.shiftRight_eq_div_pow]
  norm_num
  omega

theorem decodeAux_value (c v : Nat) (src : Bytes) (j : Nat) (dbuf : List Nat) (acc : Bytes)
    (h : decodeMap c = some v) :
    decodeAux (c :: src) j dbuf acc =
      if j = 3 then decodeAux src 0 [] (acc ++ quantumBytes (dbuf ++ [v]) 4)
      else decodeAux src (j + 1) (dbuf ++ [v]) acc := by
  rw [decodeAux, h]

theorem decodeAux_encodeString (bs : Bytes) (h : ∀ x ∈ bs, x < 256) (acc : Bytes) :
    decodeAux (encodeString bs) 0 [] acc = (acc ++ bs, false) := by
  induction bs using encodeString.induct generalizing acc with
  | case1 => simp [encodeString, decodeAux]
  | case2 a =>
    have ha : a < 256 := h a (by simp)
    rw [encodeString,
      decodeAux_value _ _ _ _ _ _ (decodeMap_encodeChar (a / 4) (by omega)),
      if_neg (by decide),
      decodeAux_value _ _ _ _ _ _ (decodeMap_encodeChar (a % 4 * 16) (by omega)),
      if_neg (by decide)]
    simp [decodeAux, decodeMap, skipNewlines, quantumBytes_two a ha]
  | case3 a b =>
    have ha : a < 256 := h a (by simp)
    have hb : b < 256 := h b (by simp)
    rw [encodeString,
      decodeAux_value _ _ _ _ _ _ (decodeMap_encodeChar (a / 4) (by omega)),
      if_neg (by decide),
      decodeAux_value _ _ _ _ _ _ (decodeMap_encodeChar (a % 4 * 16 + b / 16) (by omega)),
      if_neg (by decide),
      decodeAux_value _ _ _ _ _ _ (decodeMap_encodeChar (b % 16 * 4) (by omega)),
      if_neg (by decide)]
    simp [decodeAux, decodeMap, skipNewlines, quantumBytes_three a b ha hb]
  | case4 a b c rest ih =>
    have ha : a < 256 := h a (by simp)
    have hb : b < 256 := h b (by simp)
    have hc : c < 256 := h c (by simp)
    rw [encodeString,
      decodeAux_value _ _ _ _ _ _ (decodeMap_encodeChar (a / 4) (by omega)),
      if_neg (by decide),
      decodeAux_value _ _ _ _ _ _ (decodeMap_encodeChar (a % 4 * 16 + b / 16) (by omega)),
      if_neg (by decide),
      decodeAux_value _ _ _ _ _ _ (decodeMap_encodeChar (b % 16 * 4 + c / 64) (by omega)),
      if_neg (by decide),
      decodeAux_value _ _ _ _ _ _ (decodeMap_encodeChar (c % 64) (by omega)),
      if_pos (by decide)]
    simp only [List.nil_append, List.cons_append]
    rw [quantumBytes_four a b c ha hb hc,
      ih (fun x hx => h x (by simp [hx])) _]
    simp

/-- The decoder inverts the base64url encoding of RFC 4648: every byte string
is recovered from its encoding, without error. -/
theorem decodeString_encodeString (bs : Bytes) (h : ∀ x ∈ bs, x < 256) :
    decodeString (encodeString bs) = (bs, false) := by
  unfold decodeString
  rw [decodeAux_encodeString bs h []]
  rfl

theorem encodeString_values :
    encodeString (goString "Hello ") = goString "SGVsbG8g" ∧
    encodeString (goString "f") = goString "Zg==" ∧
    encodeString (goString "fo") = goString "Zm8=" ∧
    encodeString [251, 255, 191] = goString "-_-_" := by
  decide

/-! ## Basic lemmas -/

theorem seqIds_append (a b : List Line) : seqIds (a ++ b) = seqIds a ++ seqIds b := by
  induction a with
  | nil => rfl
  | cons l ls ih => cases l <;> simp [seqIds, ih]

theorem labelCodes_append (a b : List Line) :
    labelCodes (a ++ b) = labelCodes a ++ labelCodes b := by
  induction a with
  | nil => rfl
  | cons l ls ih => cases l <;> simp [labelCodes, ih]

theorem seqIds_map_L (cs : List Nat) : seqIds (cs.map Line.L) = [] := by
  induction cs with
  | nil => rfl
  | cons c cs ih => simpa [seqIds] using ih

theorem labelCodes_map_L (cs : List Nat) : labelCodes (cs.map Line.L) = cs := by
  induction cs with
  | nil => rfl
  | cons c cs ih => simp [labelCodes, ih]

theorem headerLine_isHeader {h : Header} {l : Line} (hl : headerLine h = some l) :
    l.isHeader = true := by
  unfold headerLine at hl
  split_ifs at hl <;> simp at hl <;> subst hl <;> rfl

theorem seqIds_headerLines (hs : List Header) : seqIds (hs.filterMap headerLine) = [] := by
  induction hs with
  | nil => rfl
  | cons h hs ih =>
    rw [List.filterMap_cons]
    cases hl : headerLine h with
    | none => simpa using ih
    | some l =>
      have := headerLine_isHeader hl
      cases l <;> simp [Line.isHeader] at this <;> simpa [seqIds] using ih

theorem labelCodes_headerLines (hs : List Header) :
    labelCodes (hs.filterMap headerLine) = [] := by
  induction hs with
  | nil => rfl
  | cons h hs ih =>
    rw [List.filterMap_cons]
    cases hl : headerLine h with
    | none => simpa using ih
    | some l =>
      have := headerLine_isHeader hl
      cases l <;> simp [Line.isHeader] at this <;> simpa [labelCodes] using ih

/-! ## The label loop and the header loop -/

theorem labelStep_eq (acc : State × Bool) (label : Bytes) :
    labelStep acc label =
      match firstMarker label with
      | some c => (acc.1.println (Line.L c), true)
      | none => acc := by
  unfold labelStep firstMarker markers
  simp only [List.findIdx?_cons, List.findIdx?_nil]
  split_ifs <;> simp_all

theorem foldl_labelStep (labels : List Bytes) (st : State) (b : Bool) :
    labels.foldl labelStep (st, b) =
      ({ st with out := st.out ++ (labels.filterMap firstMarker).map Line.L },
        b || (labels.filterMap firstMarker).isEmpty.not) := by
  induction labels generalizing st b with
  | nil => simp
  | cons l ls ih =>
    rw [List.foldl_cons, labelStep_eq, List.filterMap_cons]
    cases h : firstMarker l with
    | none => simpa using ih st b
    | some c => simp [ih, State.println]

theorem labelLoop_eq (labels : List Bytes) (st : State) :
    labelLoop labels st =
      ({ st with out := st.out ++ (labels.filterMap firstMarker).map Line.L },
        (labels.filterMap firstMarker).isEmpty.not) := by
  unfold labelLoop
  rw [foldl_labelStep]
  simp

theorem hasCategory_iff (msg : Message) :
    hasCategory msg = (msg.labelIds.filterMap firstMarker).isEmpty.not := by
  unfold hasCategory
  induction msg.labelIds with
  | nil => rfl
  | cons l ls ih =>
    rw [List.any_cons, List.filterMap_cons]
    cases h : firstMarker l with
    | none => simpa using ih
    | some c => simp

theorem headerStep_eq (st : State) (h : Header) :
    headerStep st h = { st with out := st.out ++ (headerLine h).toList } := by
  unfold headerStep headerLine
  split_ifs <;> simp [State.println]

theorem headerLoop_eq (hs : List Header) (st : State) :
    headerLoop hs st = { st with out := st.out ++ hs.filterMap headerLine } := by
  unfold headerLoop
  induction hs generalizing st with
  | nil => simp
  | cons h hs ih =>
    rw [List.foldl_cons, headerStep_eq, ih, List.filterMap_cons]
    cases headerLine h <;> simp

/-! ## One part -/

theorem processPart_gate (limit : Int) (msg : Message) (st : State) (part : MessagePart)
    (h : ¬ st.count < limit) : processPart limit msg st part = st := by
  unfold processPart
  simp [h]

theorem processPart_noBody (limit : Int) (msg : Message) (st : State) (part : MessagePart)
    (h : st.count < limit) (hb : hasBody part = false) :
    processPart limit msg st part = st.println Line.blank := by
  unfold processPart
  unfold hasBody at hb
  simp only [h, if_true]
  by_cases hid : part.partId = goString "0"
  · have ht : trimSpace (decodeString part.data).1 = [] := by simpa [hid] using hb
    simp [hid, ht]
  · simp [hid]

theorem processPart_noCategory (limit : Int) (msg : Message) (st : State) (part : MessagePart)
    (h : st.count < limit) (hb : hasBody part = true) (hc : hasCategory msg = false) :
    processPart limit msg st part =
      { st with out := st.out ++ [Line.I st.count], count := st.count + 1 } := by
  unfold processPart
  unfold hasBody at hb
  rw [hasCategory_iff] at hc
  have hid : part.partId = goString "0" := by simp at hb; exact hb.1
  have ht : trimSpace (decodeString part.data).1 ≠ [] := by simp at hb; exact hb.2
  have hnil : msg.labelIds.filterMap firstMarker = [] := by simpa using hc
  simp [h, hid, ht, labelLoop_eq, hnil, State.println]

theorem processPart_record (limit : Int) (msg : Message) (st : State) (part : MessagePart)
    (h : st.count < limit) (hb : hasBody part = true) (hc : hasCategory msg = true) :
    processPart limit msg st part =
      { st with
        out := st.out ++ recordLines msg st.count (trimSpace (decodeString part.data).1),
        count := st.count + 1 } := by
  unfold processPart
  unfold hasBody at hb
  rw [hasCategory_iff] at hc
  have hid : part.partId = goString "0" := by simp at hb; exact hb.1
  have ht : trimSpace (decodeString part.data).1 ≠ [] := by simp at hb; exact hb.2
  have hne : (msg.labelIds.filterMap firstMarker).isEmpty = false := by simpa using hc
  simp [h, hid, ht, labelLoop_eq, headerLoop_eq, hne, State.println, recordLines]

theorem seqIds_recordLines (msg : Message) (n : Int) (text : Bytes) :
    seqIds (recordLines msg n text) = [n] := by
  simp [recordLines, seqIds_append, seqIds, seqIds_map_L, seqIds_headerLines]

/-- What one part does to the state, in the four cases of the source. -/
theorem processPart_cases (limit : Int) (msg : Message) (st : State) (part : MessagePart) :
    ∃ ls : List Line, ∃ d : Int,
      processPart limit msg st part = { st with out := st.out ++ ls, count := st.count + d } ∧
      ((d = 0 ∧ seqIds ls = []) ∨ (d = 1 ∧ seqIds ls = [st.count] ∧ st.count < limit)) ∧
      d = (if st.count < limit ∧ hasBody part = true then 1 else 0) := by
  by_cases h : st.count < limit
  · cases hb : hasBody part with
    | false =>
      refine ⟨[Line.blank], 0, ?_, Or.inl ⟨rfl, rfl⟩, by simp⟩
      rw [processPart_noBody limit msg st part h hb]
      simp [State.println]
    | true =>
      cases hc : hasCategory msg with
      | false =>
        refine ⟨[Line.I st.count], 1, ?_, Or.inr ⟨rfl, rfl, h⟩, by simp [h]⟩
        rw [processPart_noCategory limit msg st part h hb hc]
      | true =>
        refine ⟨recordLines msg st.count (trimSpace (decodeString part.data).1), 1, ?_,
          Or.inr ⟨rfl, seqIds_recordLines _ _ _, h⟩, by simp [h]⟩
        rw [processPart_record limit msg st part h hb hc]
  · refine ⟨[], 0, ?_, Or.inl ⟨rfl, rfl⟩, by simp [h]⟩
    rw [processPart_gate limit msg st part h]
    simp

/-! ## The sequence ids along a run -/

theorem Advances.refl (limit : Int) (st : State) : Advances limit st st :=
  ⟨0, by simp, by simp, Or.inl rfl⟩

theorem Advances.of_eq (limit : Int) {st st' : State} (hc : st'.count = st.count)
    (ho : st'.out = st.out) : Advances limit st st' :=
  ⟨0, by simp [hc], by simp [ho], Or.inl rfl⟩

theorem Advances.trans {limit : Int} {a b c : State} (h1 : Advances limit a b)
    (h2 : Advances limit b c) : Advances limit a c := by
  obtain ⟨k1, hc1, ho1, hb1⟩ := h1
  obtain ⟨k2, hc2, ho2, hb2⟩ := h2
  refine ⟨k1 + k2, ?_, ?_, ?_⟩
  · rw [hc2, hc1]; push_cast; ring
  · rw [ho2, ho1, hc1, List.range_add, List.map_append, List.append_assoc]
    congr 2
    rw [List.map_map]
    apply List.map_congr_left
    intro i _
    simp only [Function.comp]
    push_cast
    ring
  · rcases Nat.eq_zero_or_pos k2 with h0 | hpos
    · subst h0
      rcases hb1 with h | h
      · left; omega
      · right; rw [hc2]; simpa using h
    · right
      rcases hb2 with h | h
      · omega
      · exact h

theorem processPart_advances (limit : Int) (msg : Message) (st : State) (part : MessagePart) :
    Advances limit st (processPart limit msg st part) := by
  obtain ⟨ls, d, heq, hcase, _⟩ := processPart_cases limit msg st part
  rw [heq]
  rcases hcase with ⟨hd, hs⟩ | ⟨hd, hs, hlt⟩
  · exact ⟨0, by simp [hd], by simp [seqIds_append, hs], Or.inl rfl⟩
  · refine ⟨1, by simp [hd], by simp [seqIds_append, hs, List.range_succ], Or.inr ?_⟩
    simp only [hd]
    omega

theorem foldl_processPart_advances (limit : Int) (msg : Message) (parts : List MessagePart)
    (st : State) : Advances limit st (parts.foldl (processPart limit msg) st) := by
  induction parts generalizing st with
  | nil => exact Advances.refl limit st
  | cons p ps ih =>
    rw [List.foldl_cons]
    exact (processPart_advances limit msg st p).trans (ih _)

theorem processMessage_advances (limit : Int) (msg : Message) (st : State) :
    Advances limit st (processMessage limit msg st) := by
  unfold processMessage
  exact (Advances.of_eq limit rfl rfl).trans (foldl_processPart_advances limit msg _ _)

theorem processMessages_advances (limit : Int) (msgs : List (Option Message)) (st : State) :
    Advances limit st (processMessages limit msgs st) := by
  induction msgs generalizing st with
  | nil => exact Advances.refl limit st
  | cons m ms ih =>
    cases m with
    | none => exact Advances.of_eq limit rfl rfl
    | some msg =>
      rw [processMessages]
      have h0 : Advances limit st { st with fetched := st.fetched + 1 } :=
        Advances.of_eq limit rfl rfl
      exact (h0.trans (processMessage_advances limit msg _)).trans (ih _)

theorem runPages_advances (limit : Int) (pages : List (Option ListResponse)) (st : State) :
    Advances limit st (runPages limit pages st) := by
  induction pages generalizing st with
  | nil => exact Advances.refl limit st
  | cons r rs ih =>
    cases r with
    | none => exact Advances.of_eq limit rfl rfl
    | some r =>
      have h1 : Advances limit st
          (processMessages limit r.messages { st with listed := st.listed + 1 }) :=
        (Advances.of_eq limit rfl rfl).trans (processMessages_advances limit _ _)
      rw [runPages]
      split_ifs
      · exact h1
      · exact h1
      · exact h1.trans (ih _)

theorem run_advances (start limit : Int) (pages : List (Option ListResponse)) :
    Advances limit (initState start) (run start limit pages) :=
  runPages_advances limit pages _

/-! ## How far the counter gets -/

theorem advance_advance (limit c : Int) (n m : Nat) :
    advance limit (advance limit c n) m = advance limit c (n + m) := by
  unfold advance
  omega

theorem advance_of_reached (limit c : Int) (n m : Nat) (h : limit ≤ advance limit c n) :
    advance limit c (n + m) = advance limit c n := by
  unfold advance at *
  omega

theorem qualifyingMsgs_le (msgs : List (Option Message)) :
    qualifyingMsgs msgs ≤ availableMsgs msgs := by
  induction msgs with
  | nil => exact Nat.le_refl _
  | cons m ms ih =>
    cases m with
    | none => exact Nat.le_refl _
    | some msg =>
      simp only [qualifyingMsgs, availableMsgs]
      split_ifs <;> omega

theorem qualifying_le (pages : List (Option ListResponse)) :
    qualifying pages ≤ available pages := by
  induction pages with
  | nil => exact Nat.le_refl _
  | cons r rs ih =>
    cases r with
    | none => exact Nat.le_refl _
    | some r =>
      simp only [qualifying, available]
      have := qualifyingMsgs_le r.messages
      split_ifs <;> omega

theorem processPart_frame (limit : Int) (msg : Message) (st : State) (part : MessagePart) :
    (processPart limit msg st part).total = st.total ∧
    (processPart limit msg st part).fetched = st.fetched ∧
    (processPart limit msg st part).listed = st.listed ∧
    (processPart limit msg st part).fatal = st.fatal ∧
    (processPart limit msg st part).count =
      advance limit st.count (if hasBody part = true then 1 else 0) := by
  obtain ⟨ls, d, heq, _, hd⟩ := processPart_cases limit msg st part
  rw [heq]
  refine ⟨rfl, rfl, rfl, rfl, ?_⟩
  simp only [hd, advance]
  split_ifs <;> simp_all
  all_goals omega

theorem foldl_processPart_frame (limit : Int) (msg : Message) (parts : List MessagePart)
    (st : State) :
    (parts.foldl (processPart limit msg) st).total = st.total ∧
    (parts.foldl (processPart limit msg) st).fetched = st.fetched ∧
    (parts.foldl (processPart limit msg) st).listed = st.listed ∧
    (parts.foldl (processPart limit msg) st).fatal = st.fatal ∧
    (parts.foldl (processPart limit msg) st).count =
      advance limit st.count (parts.countP hasBody) := by
  induction parts generalizing st with
  | nil => simp [advance]
  | cons p ps ih =>
    obtain ⟨h1, h2, h3, h4, h5⟩ := processPart_frame limit msg st p
    obtain ⟨i1, i2, i3, i4, i5⟩ := ih (processPart limit msg st p)
    rw [List.foldl_cons]
    refine ⟨i1.trans h1, i2.trans h2, i3.trans h3, i4.trans h4, ?_⟩
    rw [i5, h5, advance_advance, List.countP_cons]
    congr 1
    split_ifs <;> omega

theorem processMessage_frame (limit : Int) (msg : Message) (st : State) :
    (processMessage limit msg st).total = wrapInt64 (st.total + msg.sizeEstimate) ∧
    (processMessage limit msg st).fetched = st.fetched ∧
    (processMessage limit msg st).listed = st.listed ∧
    (processMessage limit msg st).fatal = st.fatal ∧
    (processMessage limit msg st).count = advance limit st.count (bodiesOf msg) := by
  unfold processMessage bodiesOf
  exact foldl_processPart_frame limit msg msg.parts _

theorem processMessages_frame (limit : Int) (msgs : List (Option Message)) (st : State) :
    (processMessages limit msgs st).total = addSizes st.total msgs ∧
    (processMessages limit msgs st).listed = st.listed ∧
    (processMessages limit msgs st).fatal = (st.fatal || !msgs.all Option.isSome) ∧
    (processMessages limit msgs st).count = advance limit st.count (availableMsgs msgs) := by
  induction msgs generalizing st with
  | nil => simp [processMessages, addSizes, availableMsgs, advance]
  | cons m ms ih =>
    cases m with
    | none => simp [processMessages, addSizes, availableMsgs, advance]
    | some msg =>
      obtain ⟨h1, _, h3, h4, h5⟩ :=
        processMessage_frame limit msg { st with fetched := st.fetched + 1 }
      obtain ⟨i1, i3, i4, i5⟩ :=
        ih (processMessage limit msg { st with fetched := st.fetched + 1 })
      rw [processMessages]
      refine ⟨?_, ?_, ?_, ?_⟩
      · rw [i1, h1]; rfl
      · rw [i3, h3]
      · rw [i4, h4]; simp
      · rw [i5, h5, advance_advance]; rfl

theorem processMessages_fetched (limit : Int) (msgs : List (Option Message)) (st : State)
    (hok : msgs.all Option.isSome = true) :
    (processMessages limit msgs st).fetched = st.fetched + msgs.length := by
  induction msgs generalizing st with
  | nil => rfl
  | cons m ms ih =>
    cases m with
    | none => simp at hok
    | some msg =>
      have hok2 : ms.all Option.isSome = true := by simpa using hok
      rw [processMessages, ih _ hok2, (processMessage_frame limit msg _).2.1]
      simp only [List.length_cons]
      omega

theorem runPages_cons (limit : Int) (r : ListResponse) (rs : List (Option ListResponse))
    (st : State) :
    runPages limit (some r :: rs) st =
      if (afterPage limit r st).fatal = true then afterPage limit r st
      else if r.nextPageToken = [] ∨ (afterPage limit r st).count ≥ limit then
        afterPage limit r st
      else runPages limit rs (afterPage limit r st) := rfl

theorem afterPage_frame (limit : Int) (r : ListResponse) (st : State) :
    (afterPage limit r st).total = addSizes st.total r.messages ∧
    (afterPage limit r st).listed = st.listed + 1 ∧
    (afterPage limit r st).fatal = (st.fatal || !r.messages.all Option.isSome) ∧
    (afterPage limit r st).count = advance limit st.count (availableMsgs r.messages) :=
  processMessages_frame limit r.messages { st with listed := st.listed + 1 }

theorem runPages_count (limit : Int) (pages : List (Option ListResponse)) (st : State)
    (hf : st.fatal = false) :
    (runPages limit pages st).count = advance limit st.count (available pages) := by
  induction pages generalizing st with
  | nil => simp [runPages, available, advance]
  | cons r rs ih =>
    cases r with
    | none => simp [runPages, available, advance]
    | some r =>
      obtain ⟨_, _, h3, h4⟩ := afterPage_frame limit r st
      rw [hf, Bool.false_or] at h3
      rw [runPages_cons]
      simp only [available]
      by_cases hfatal : (afterPage limit r st).fatal = true
      · have hall : r.messages.all Option.isSome = false := by
          rw [h3] at hfatal
          simpa using hfatal
        rw [if_pos hfatal, if_neg (by simp [hall]), h4]
        rfl
      · have hall : r.messages.all Option.isSome = true := by
          rw [h3] at hfatal
          cases hx : r.messages.all Option.isSome with
          | true => rfl
          | false => rw [hx] at hfatal; exact absurd rfl hfatal
        rw [if_neg hfatal]
        by_cases hstop : r.nextPageToken = [] ∨ (afterPage limit r st).count ≥ limit
        · rw [if_pos hstop]
          by_cases htk : r.nextPageToken = []
          · rw [if_neg (by simp [htk]), h4]
            rfl
          · rw [if_pos ⟨hall, htk⟩]
            have hreach := hstop.resolve_left htk
            rw [h4] at hreach ⊢
            exact (advance_of_reached limit st.count _ _ hreach).symm
        · rw [if_neg hstop]
          have htk : r.nextPageToken ≠ [] := fun h => hstop (Or.inl h)
          rw [if_pos ⟨hall, htk⟩, ih _ (by simpa using hfatal), h4, advance_advance]

/-! ## What a message writes -/

theorem not_body_mem_map_L (text : Bytes) (cs : List Nat) :
    Line.body text ∉ cs.map Line.L := by
  simp

theorem not_body_mem_headerLines (text : Bytes) (hs : List Header) :
    Line.body text ∉ hs.filterMap headerLine := by
  intro hmem
  obtain ⟨h, _, hl⟩ := List.mem_filterMap.1 hmem
  have := headerLine_isHeader hl
  simp [Line.isHeader] at this

theorem body_mem_recordLines {msg : Message} {n : Int} {text t : Bytes}
    (h : Line.body text ∈ recordLines msg n t) : text = t := by
  unfold recordLines at h
  simp only [List.mem_append, List.mem_cons, List.mem_singleton] at h
  rcases h with ((h | h) | h) | h
  · rcases h with h | h
    · cases h
    · cases h
  · exact absurd h (not_body_mem_map_L text _)
  · exact absurd h (not_body_mem_headerLines text _)
  · rcases h with h | h | h | h
    · cases h
    · cases h; rfl
    · cases h
    · cases h

theorem hasBody_iff (p : MessagePart) :
    hasBody p = true ↔ p.partId = goString "0" ∧ trimSpace (decodeString p.data).1 ≠ [] := by
  unfold hasBody
  simp

/-- The lines one part writes: every body line among them is the non-empty
trimmed text of that part, and a part without body writes blank lines only
and leaves the counter alone. -/
theorem processPart_lines (limit : Int) (msg : Message) (st : State) (part : MessagePart) :
    ∃ ls : List Line,
      (processPart limit msg st part).out = st.out ++ ls ∧
      (∀ text, Line.body text ∈ ls →
        hasBody part = true ∧ text = trimSpace (decodeString part.data).1) ∧
      (hasBody part = false →
        (∃ k, ls = List.replicate k Line.blank) ∧
        (processPart limit msg st part).count = st.count) := by
  by_cases h : st.count < limit
  · cases hb : hasBody part with
    | false =>
      rw [processPart_noBody limit msg st part h hb]
      exact ⟨[Line.blank], rfl, by simp, fun _ => ⟨⟨1, rfl⟩, rfl⟩⟩
    | true =>
      cases hc : hasCategory msg with
      | false =>
        rw [processPart_noCategory limit msg st part h hb hc]
        exact ⟨[Line.I st.count], rfl, by simp, by simp⟩
      | true =>
        rw [processPart_record limit msg st part h hb hc]
        exact ⟨_, rfl, fun text ht => ⟨rfl, body_mem_recordLines ht⟩, by simp⟩
  · rw [processPart_gate limit msg st part h]
    exact ⟨[], by simp, by simp, fun _ => ⟨⟨0, rfl⟩, rfl⟩⟩

theorem foldl_processPart_lines (limit : Int) (msg : Message) (parts : List MessagePart)
    (st : State) :
    ∃ ls : List Line,
      (parts.foldl (processPart limit msg) st).out = st.out ++ ls ∧
      (∀ text, Line.body text ∈ ls →
        ∃ p ∈ parts, hasBody p = true ∧ text = trimSpace (decodeString p.data).1) ∧
      ((∀ p ∈ parts, hasBody p = false) →
        (∃ k, ls = List.replicate k Line.blank) ∧
        (parts.foldl (processPart limit msg) st).count = st.count) := by
  induction parts generalizing st with
  | nil => exact ⟨[], by simp, by simp, fun _ => ⟨⟨0, rfl⟩, rfl⟩⟩
  | cons p ps ih =>
    obtain ⟨l1, ho1, hb1, hn1⟩ := processPart_lines limit msg st p
    obtain ⟨l2, ho2, hb2, hn2⟩ := ih (processPart limit msg st p)
    rw [List.foldl_cons]
    refine ⟨l1 ++ l2, ?_, ?_, ?_⟩
    · rw [ho2, ho1, List.append_assoc]
    · intro text ht
      rcases List.mem_append.1 ht with ht | ht
      · exact ⟨p, List.mem_cons_self _ _, hb1 text ht⟩
      · obtain ⟨q, hq, hq2⟩ := hb2 text ht
        exact ⟨q, List.mem_cons_of_mem _ hq, hq2⟩
    · intro hall
      obtain ⟨⟨k1, hk1⟩, hc1⟩ := hn1 (hall p (List.mem_cons_self _ _))
      obtain ⟨⟨k2, hk2⟩, hc2⟩ := hn2 (fun q hq => hall q (List.mem_cons_of_mem _ hq))
      refine ⟨⟨k1 + k2, ?_⟩, hc2.trans hc1⟩
      rw [hk1, hk2, List.replicate_add]

theorem processMessage_reached (limit : Int) (msg : Message) (st : State)
    (h : limit ≤ st.count) :
    processMessage limit msg st =
      { st with total := wrapInt64 (st.total + msg.sizeEstimate) } := by
  unfold processMessage
  have hgen : ∀ (parts : List MessagePart) (s : State), limit ≤ s.count →
      parts.foldl (processPart limit msg) s = s := by
    intro parts
    induction parts with
    | nil => intro s _; rfl
    | cons p ps ih =>
      intro s hs
      rw [List.foldl_cons, processPart_gate limit msg s p (by omega)]
      exact ih s hs
  exact hgen msg.parts _ h

/-! ## A message with one part -/

theorem processMessage_single (limit : Int) (msg : Message) (st : State) (part : MessagePart)
    (hp : msg.parts = [part]) :
    processMessage limit msg st =
      processPart limit msg { st with total := wrapInt64 (st.total + msg.sizeEstimate) } part := by
  unfold processMessage
  rw [hp]
  rfl

/-! ## `trimSpace` removes the white space at both ends -/

theorem spaceEncodings_eq :
    spaceEncodings =
      [[0x09], [0x0A], [0x0B], [0x0C], [0x0D], [0x20], [0xC2, 0x85], [0xC2, 0xA0],
       [0xE1, 0x9A, 0x80], [0xE2, 0x80, 0x80], [0xE2, 0x80, 0x81], [0xE2, 0x80, 0x82],
       [0xE2, 0x80, 0x83], [0xE2, 0x80, 0x84], [0xE2, 0x80, 0x85], [0xE2, 0x80, 0x86],
       [0xE2, 0x80, 0x87], [0xE2, 0x80, 0x88], [0xE2, 0x80, 0x89], [0xE2, 0x80, 0x8A],
       [0xE2, 0x80, 0xA8], [0xE2, 0x80, 0xA9], [0xE2, 0x80, 0xAF], [0xE2, 0x81, 0x9F],
       [0xE3, 0x80, 0x80]] := by
  decide

theorem isSpace1_iff (b : Nat) : isSpace1 b = true ↔ [b] ∈ spaceEncodings := by
  rw [spaceEncodings_eq]
  simp [isSpace1]

theorem isSpace2_iff (b c : Nat) : isSpace2 b c = true ↔ [b, c] ∈ spaceEncodings := by
  rw [spaceEncodings_eq]
  simp [isSpace2]
  omega

theorem isSpace3_iff (b c d : Nat) : isSpace3 b c d = true ↔ [b, c, d] ∈ spaceEncodings := by
  rw [spaceEncodings_eq]
  simp only [isSpace3, List.mem_cons, List.cons.injEq, and_true, List.mem_singleton,
    Bool.decide_or, Bool.decide_and, Bool.or_eq_true, Bool.and_eq_true, decide_eq_true_eq,
    List.not_mem_nil, or_false, reduceCtorEq, and_false, false_or, false_and]
  constructor
  · rintro (⟨rfl, rfl, rfl⟩ | ⟨rfl, rfl, h⟩ | ⟨rfl, rfl, rfl⟩ | ⟨rfl, rfl, rfl⟩)
    · decide
    · rcases h with ⟨h1, h2⟩ | rfl | rfl | rfl
      · interval_cases d <;> decide
      · decide
      · decide
      · decide
    · decide
    · decide
  · intro h
    rcases h with h | h | h | h | h | h | h | h | h | h | h | h | h | h | h | h | h <;>
      obtain ⟨rfl, rfl, rfl⟩ := h <;> decide

theorem spaceEncodings_shape {r : Bytes} (hr : r ∈ spaceEncodings) :
    (∃ x, r = [x]) ∨ (∃ x y, r = [x, y]) ∨ (∃ x y z, r = [x, y, z]) := by
  rw [spaceEncodings_eq] at hr
  fin_cases hr <;> simp

theorem AllSpace.single {r : Bytes} (hr : r ∈ spaceEncodings) : AllSpace r := by
  have h := AllSpace.cons hr AllSpace.nil
  rwa [List.append_nil] at h

theorem AllSpace.append {a b : Bytes} (ha : AllSpace a) (hb : AllSpace b) :
    AllSpace (a ++ b) := by
  induction ha with
  | nil => exact hb
  | cons hr _ ih =>
    rw [List.append_assoc]
    exact AllSpace.cons hr ih

theorem hasPrefix_append (t post r : Bytes) (h : hasPrefix t r = true) :
    hasPrefix (t ++ post) r = true := by
  induction r generalizing t with
  | nil => cases t <;> cases post <;> rfl
  | cons x r ih =>
    cases t with
    | nil => simp [hasPrefix] at h
    | cons a t =>
      simp only [hasPrefix, Bool.and_eq_true, decide_eq_true_eq] at h
      simp only [List.cons_append, hasPrefix, Bool.and_eq_true, decide_eq_true_eq]
      exact ⟨h.1, ih t h.2⟩

theorem startsWithSpace_iff (t : Bytes) :
    startsWithSpace t = true ↔ ∃ r ∈ spaceEncodings, hasPrefix t r = true := by
  simp [startsWithSpace, List.any_eq_true]

theorem endsWithSpace_iff (t : Bytes) :
    endsWithSpace t = true ↔ ∃ r ∈ spaceEncodings, hasPrefix t.reverse r.reverse = true := by
  simp [endsWithSpace, List.any_eq_true]

/-! ### `trimLeft` -/

theorem trimLeft_space1 (b : Nat) (s : Bytes) (h : isSpace1 b = true) :
    trimLeft (b :: s) = trimLeft s := by
  match s with
  | [] => simp [trimLeft, h]
  | [c] => simp [trimLeft, h]
  | c :: d :: rest => simp [trimLeft, h]

theorem isSpace2_not1 {b c : Nat} (h : isSpace2 b c = true) : isSpace1 b = false := by
  simp only [isSpace2, Bool.decide_and, Bool.and_eq_true, decide_eq_true_eq] at h
  obtain ⟨rfl, _⟩ := h
  decide

theorem isSpace3_not1 {b c d : Nat} (h : isSpace3 b c d = true) : isSpace1 b = false := by
  simp only [isSpace3, Bool.decide_or, Bool.decide_and, Bool.or_eq_true, Bool.and_eq_true,
    decide_eq_true_eq] at h
  rcases h with ⟨rfl, _⟩ | ⟨rfl, _⟩ | ⟨rfl, _⟩ | ⟨rfl, _⟩ <;> decide

theorem isSpace3_not2 {b c d : Nat} (h : isSpace3 b c d = true) : isSpace2 b c = false := by
  simp only [isSpace3, Bool.decide_or, Bool.decide_and, Bool.or_eq_true, Bool.and_eq_true,
    decide_eq_true_eq] at h
  rcases h with ⟨rfl, _⟩ | ⟨rfl, _⟩ | ⟨rfl, _⟩ | ⟨rfl, _⟩ <;> simp [isSpace2]

theorem trimLeft_space2 (b c : Nat) (s : Bytes) (h : isSpace2 b c = true) :
    trimLeft (b :: c :: s) = trimLeft s := by
  have h1 := isSpace2_not1 h
  match s with
  | [] => simp [trimLeft, h, h1]
  | d :: rest => simp [trimLeft, h, h1]

theorem trimLeft_space3 (b c d : Nat) (s : Bytes) (h : isSpace3 b c d = true) :
    trimLeft (b :: c :: d :: s) = trimLeft s := by
  simp [trimLeft, h, isSpace3_not1 h, isSpace3_not2 h]

theorem trimLeft_encoding {r : Bytes} (hr : r ∈ spaceEncodings) (s : Bytes) :
    trimLeft (r ++ s) = trimLeft s := by
  rcases spaceEncodings_shape hr with ⟨x, rfl⟩ | ⟨x, y, rfl⟩ | ⟨x, y, z, rfl⟩
  · exact trimLeft_space1 x s ((isSpace1_iff x).2 hr)
  · exact trimLeft_space2 x y s ((isSpace2_iff x y).2 hr)
  · exact trimLeft_space3 x y z s ((isSpace3_iff x y z).2 hr)

theorem trimLeft_allSpace {s : Bytes} (h : AllSpace s) : trimLeft s = [] := by
  induction h with
  | nil => rfl
  | cons hr _ ih => rw [trimLeft_encoding hr, ih]

theorem hasPrefix_one {t : Bytes} {x : Nat} (h : hasPrefix t [x] = true) :
    ∃ rest, t = x :: rest := by
  cases t with
  | nil => simp [hasPrefix] at h
  | cons a t =>
    simp only [hasPrefix, Bool.and_eq_true, decide_eq_true_eq] at h
    exact ⟨t, by rw [h.1]⟩

theorem hasPrefix_cons {t r : Bytes} {x : Nat} (h : hasPrefix t (x :: r) = true) :
    ∃ rest, t = x :: rest ∧ hasPrefix rest r = true := by
  cases t with
  | nil => simp [hasPrefix] at h
  | cons a t =>
    simp only [hasPrefix, Bool.and_eq_true, decide_eq_true_eq] at h
    exact ⟨t, by rw [h.1], h.2⟩

theorem startsWithSpace_cases {t : Bytes} (h : startsWithSpace t = true) :
    (∃ b rest, t = b :: rest ∧ isSpace1 b = true) ∨
    (∃ b c rest, t = b :: c :: rest ∧ isSpace2 b c = true) ∨
    (∃ b c d rest, t = b :: c :: d :: rest ∧ isSpace3 b c d = true) := by
  obtain ⟨r, hr, hp⟩ := (startsWithSpace_iff t).1 h
  rcases spaceEncodings_shape hr with ⟨x, rfl⟩ | ⟨x, y, rfl⟩ | ⟨x, y, z, rfl⟩
  · obtain ⟨t1, rfl, _⟩ := hasPrefix_cons hp
    exact Or.inl ⟨x, t1, rfl, (isSpace1_iff x).2 hr⟩
  · obtain ⟨t1, rfl, hp1⟩ := hasPrefix_cons hp
    obtain ⟨t2, rfl, _⟩ := hasPrefix_cons hp1
    exact Or.inr (Or.inl ⟨x, y, t2, rfl, (isSpace2_iff x y).2 hr⟩)
  · obtain ⟨t1, rfl, hp1⟩ := hasPrefix_cons hp
    obtain ⟨t2, rfl, hp2⟩ := hasPrefix_cons hp1
    obtain ⟨t3, rfl, _⟩ := hasPrefix_cons hp2
    exact Or.inr (Or.inr ⟨x, y, z, t3, rfl, (isSpace3_iff x y z).2 hr⟩)

theorem endsWithSpace_cases {u : Bytes} (h : endsWithSpace u.reverse = true) :
    (∃ d rest, u = d :: rest ∧ isSpace1 d = true) ∨
    (∃ d c rest, u = d :: c :: rest ∧ isSpace2 c d = true) ∨
    (∃ d c b rest, u = d :: c :: b :: rest ∧ isSpace3 b c d = true) := by
  obtain ⟨r, hr, hp⟩ := (endsWithSpace_iff u.reverse).1 h
  rw [List.reverse_reverse] at hp
  rcases spaceEncodings_shape hr with ⟨x, rfl⟩ | ⟨x, y, rfl⟩ | ⟨x, y, z, rfl⟩
  · obtain ⟨t1, rfl, _⟩ := hasPrefix_cons hp
    exact Or.inl ⟨x, t1, rfl, (isSpace1_iff x).2 hr⟩
  · obtain ⟨t1, rfl, hp1⟩ := hasPrefix_cons hp
    obtain ⟨t2, rfl, _⟩ := hasPrefix_cons hp1
    exact Or.inr (Or.inl ⟨y, x, t2, rfl, (isSpace2_iff x y).2 hr⟩)
  · obtain ⟨t1, rfl, hp1⟩ := hasPrefix_cons hp
    obtain ⟨t2, rfl, hp2⟩ := hasPrefix_cons hp1
    obtain ⟨t3, rfl, _⟩ := hasPrefix_cons hp2
    exact Or.inr (Or.inr ⟨z, y, x, t3, rfl, (isSpace3_iff x y z).2 hr⟩)

theorem eq_false_of_not_true {b : Bool} (h : b = true → False) : b = false := by
  cases b
  · rfl
  · exact absurd rfl h

/-- What `trimLeft` removes is white space. -/
theorem trimLeft_removed (s : Bytes) : ∃ pre, s = pre ++ trimLeft s ∧ AllSpace pre := by
  induction s using trimLeft.induct with
  | case1 => exact ⟨[], rfl, AllSpace.nil⟩
  | case2 b h => exact ⟨[b], by simp [trimLeft, h], AllSpace.single ((isSpace1_iff b).1 h)⟩
  | case3 b h => exact ⟨[], by simp [trimLeft, h], AllSpace.nil⟩
  | case4 b c h ih =>
    obtain ⟨pre, hp, ha⟩ := ih
    refine ⟨[b] ++ pre, ?_, AllSpace.cons ((isSpace1_iff b).1 h) ha⟩
    rw [trimLeft_space1 b [c] h, List.append_assoc, ← hp]
    rfl
  | case5 b c h1 h2 =>
    exact ⟨[b, c], by simp [trimLeft, h1, h2], AllSpace.single ((isSpace2_iff b c).1 h2)⟩
  | case6 b c h1 h2 => exact ⟨[], by simp [trimLeft, h1, h2], AllSpace.nil⟩
  | case7 b c d rest h ih =>
    obtain ⟨pre, hp, ha⟩ := ih
    refine ⟨[b] ++ pre, ?_, AllSpace.cons ((isSpace1_iff b).1 h) ha⟩
    rw [trimLeft_space1 b _ h, List.append_assoc, ← hp]
    rfl
  | case8 b c d rest h1 h2 ih =>
    obtain ⟨pre, hp, ha⟩ := ih
    refine ⟨[b, c] ++ pre, ?_, AllSpace.cons ((isSpace2_iff b c).1 h2) ha⟩
    rw [trimLeft_space2 b c _ h2, List.append_assoc, ← hp]
    rfl
  | case9 b c d rest h1 h2 h3 ih =>
    obtain ⟨pre, hp, ha⟩ := ih
    refine ⟨[b, c, d] ++ pre, ?_, AllSpace.cons ((isSpace3_iff b c d).1 h3) ha⟩
    rw [trimLeft_space3 b c d _ h3, List.append_assoc, ← hp]
    rfl
  | case10 b c d rest h1 h2 h3 => exact ⟨[], by simp [trimLeft, h1, h2, h3], AllSpace.nil⟩

/-- What `trimLeft` leaves does not begin with white space. -/
theorem trimLeft_start (s : Bytes) : startsWithSpace (trimLeft s) = false := by
  induction s using trimLeft.induct with
  | case1 => decide
  | case2 b h => rw [trimLeft_space1 b [] h]; decide
  | case3 b h =>
    simp only [trimLeft, h, if_false]
    apply eq_false_of_not_true
    intro hs
    rcases startsWithSpace_cases hs with ⟨x, r, he, hx⟩ | ⟨x, y, r, he, _⟩ | ⟨x, y, z, r, he, _⟩
    · cases he; exact h hx
    · cases he
    · cases he
  | case4 b c h ih => rw [trimLeft_space1 b [c] h]; exact ih
  | case5 b c h1 h2 => rw [trimLeft_space2 b c [] h2]; decide
  | case6 b c h1 h2 =>
    simp only [trimLeft, h1, h2, if_false]
    apply eq_false_of_not_true
    intro hs
    rcases startsWithSpace_cases hs with ⟨x, r, he, hx⟩ | ⟨x, y, r, he, hx⟩ | ⟨x, y, z, r, he, _⟩
    · cases he; exact h1 hx
    · cases he; exact h2 hx
    · cases he
  | case7 b c d rest h ih => rw [trimLeft_space1 b _ h]; exact ih
  | case8 b c d rest h1 h2 ih => rw [trimLeft_space2 b c _ h2]; exact ih
  | case9 b c d rest h1 h2 h3 ih => rw [trimLeft_space3 b c d _ h3]; exact ih
  | case10 b c d rest h1 h2 h3 =>
    simp only [trimLeft, h1, h2, h3, if_false]
    apply eq_false_of_not_true
    intro hs
    rcases startsWithSpace_cases hs with ⟨x, r, he, hx⟩ | ⟨x, y, r, he, hx⟩ | ⟨x, y, z, r, he, hx⟩
    · cases he; exact h1 hx
    · cases he; exact h2 hx
    · cases he; exact h3 hx

/-! ### `trimLeftRev` -/

theorem trimLeftRev_space1 (d : Nat) (u : Bytes) (h : isSpace1 d = true) :
    trimLeftRev (d :: u) = trimLeftRev u := by
  match u with
  | [] => simp [trimLeftRev, h]
  | [c] => simp [trimLeftRev, h]
  | c :: b :: rest => simp [trimLeftRev, h]

theorem isSpace2_not1_last {c d : Nat} (h : isSpace2 c d = true) : isSpace1 d = false := by
  simp only [isSpace2, Bool.decide_and, Bool.decide_or, Bool.and_eq_true, Bool.or_eq_true,
    decide_eq_true_eq] at h
  rcases h with ⟨_, rfl | rfl⟩ <;> decide

theorem isSpace3_not1_last {b c d : Nat} (h : isSpace3 b c d = true) : isSpace1 d = false := by
  simp only [isSpace3, Bool.decide_or, Bool.decide_and, Bool.or_eq_true, Bool.and_eq_true,
    decide_eq_true_eq] at h
  simp only [isSpace1, Bool.decide_or, Bool.or_eq_false_iff, decide_eq_false_iff_not]
  omega

theorem isSpace3_not2_last {b c d : Nat} (h : isSpace3 b c d = true) : isSpace2 c d = false := by
  simp only [isSpace3, Bool.decide_or, Bool.decide_and, Bool.or_eq_true, Bool.and_eq_true,
    decide_eq_true_eq] at h
  rcases h with ⟨_, rfl, _⟩ | ⟨_, rfl, _⟩ | ⟨_, rfl, _⟩ | ⟨_, rfl, _⟩ <;> simp [isSpace2]

theorem trimLeftRev_space2 (c d : Nat) (u : Bytes) (h : isSpace2 c d = true) :
    trimLeftRev (d :: c :: u) = trimLeftRev u := by
  have h1 := isSpace2_not1_last h
  match u with
  | [] => simp [trimLeftRev, h, h1]
  | b :: rest => simp [trimLeftRev, h, h1]

theorem trimLeftRev_space3 (b c d : Nat) (u : Bytes) (h : isSpace3 b c d = true) :
    trimLeftRev (d :: c :: b :: u) = trimLeftRev u := by
  simp [trimLeftRev, h, isSpace3_not1_last h, isSpace3_not2_last h]

/-- What `trimLeftRev` removes from a reversed text is white space at the end
of the text. -/
theorem trimLeftRev_removed (u : Bytes) :
    ∃ post, u = post.reverse ++ trimLeftRev u ∧ AllSpace post := by
  induction u using trimLeftRev.induct with
  | case1 => exact ⟨[], rfl, AllSpace.nil⟩
  | case2 b h => exact ⟨[b], by simp [trimLeftRev, h], AllSpace.single ((isSpace1_iff b).1 h)⟩
  | case3 b h => exact ⟨[], by simp [trimLeftRev, h], AllSpace.nil⟩
  | case4 b c h ih =>
    obtain ⟨post, hp, ha⟩ := ih
    refine ⟨post ++ [b], ?_, ha.append (AllSpace.single ((isSpace1_iff b).1 h))⟩
    rw [trimLeftRev_space1 b [c] h, List.reverse_append, List.append_assoc, ← hp]
    rfl
  | case5 b c h1 h2 =>
    exact ⟨[c, b], by simp [trimLeftRev, h1, h2], AllSpace.single ((isSpace2_iff c b).1 h2)⟩
  | case6 b c h1 h2 => exact ⟨[], by simp [trimLeftRev, h1, h2], AllSpace.nil⟩
  | case7 b c d rest h ih =>
    obtain ⟨post, hp, ha⟩ := ih
    refine ⟨post ++ [b], ?_, ha.append (AllSpace.single ((isSpace1_iff b).1 h))⟩
    rw [trimLeftRev_space1 b _ h, List.reverse_append, List.append_assoc, ← hp]
    rfl
  | case8 b c d rest h1 h2 ih =>
    obtain ⟨post, hp, ha⟩ := ih
    refine ⟨post ++ [c, b], ?_, ha.append (AllSpace.single ((isSpace2_iff c b).1 h2))⟩
    rw [trimLeftRev_space2 c b _ h2, List.reverse_append, List.append_assoc, ← hp]
    rfl
  | case9 b c d rest h1 h2 h3 ih =>
    obtain ⟨post, hp, ha⟩ := ih
    refine ⟨post ++ [d, c, b], ?_, ha.append (AllSpace.single ((isSpace3_iff d c b).1 h3))⟩
    rw [trimLeftRev_space3 d c b _ h3, List.reverse_append, List.append_assoc, ← hp]
    rfl
  | case10 b c d rest h1 h2 h3 =>
    exact ⟨[], by simp [trimLeftRev, h1, h2, h3], AllSpace.nil⟩

/-- What `trimLeftRev` leaves, read backwards, does not end with white space. -/
theorem trimLeftRev_end (u : Bytes) : endsWithSpace (trimLeftRev u).reverse = false := by
  induction u using trimLeftRev.induct with
  | case1 => decide
  | case2 b h => rw [trimLeftRev_space1 b [] h]; decide
  | case3 b h =>
    simp only [trimLeftRev, h, if_false]
    apply eq_false_of_not_true
    intro hs
    rcases endsWithSpace_cases hs with ⟨x, r, he, hx⟩ | ⟨x, y, r, he, _⟩ | ⟨x, y, z, r, he, _⟩
    · cases he; exact h hx
    · cases he
    · cases he
  | case4 b c h ih => rw [trimLeftRev_space1 b [c] h]; exact ih
  | case5 b c h1 h2 => rw [trimLeftRev_space2 c b [] h2]; decide
  | case6 b c h1 h2 =>
    simp only [trimLeftRev, h1, h2, if_false]
    apply eq_false_of_not_true
    intro hs
    rcases endsWithSpace_cases hs with ⟨x, r, he, hx⟩ | ⟨x, y, r, he, hx⟩ | ⟨x, y, z, r, he, _⟩
    · cases he; exact h1 hx
    · cases he; exact h2 hx
    · cases he
  | case7 b c d rest h ih => rw [trimLeftRev_space1 b _ h]; exact ih
  | case8 b c d rest h1 h2 ih => rw [trimLeftRev_space2 c b _ h2]; exact ih
  | case9 b c d rest h1 h2 h3 ih => rw [trimLeftRev_space3 d c b _ h3]; exact ih
  | case10 b c d rest h1 h2 h3 =>
    simp only [trimLeftRev, h1, h2, h3, if_false]
    apply eq_false_of_not_true
    intro hs
    rcases endsWithSpace_cases hs with ⟨x, r, he, hx⟩ | ⟨x, y, r, he, hx⟩ | ⟨x, y, z, r, he, hx⟩
    · cases he; exact h1 hx
    · cases he; exact h2 hx
    · cases he; exact h3 hx

/-! ### `trimSpace` -/

/-- The result of `trimSpace`: the text between a leading and a trailing run of
white-space runes, itself neither beginning nor ending with white space. -/
theorem trimSpace_spec (s : Bytes) :
    ∃ pre post, s = pre ++ trimSpace s ++ post ∧ AllSpace pre ∧ AllSpace post ∧
      startsWithSpace (trimSpace s) = false ∧ endsWithSpace (trimSpace s) = false := by
  obtain ⟨pre, hpre, hapre⟩ := trimLeft_removed s
  obtain ⟨post, hpost, hapost⟩ := trimLeftRev_removed (trimLeft s).reverse
  have hmid : trimLeft s = trimSpace s ++ post := by
    have := congrArg List.reverse hpost
    rw [List.reverse_reverse, List.reverse_append, List.reverse_reverse] at this
    exact this
  refine ⟨pre, post, ?_, hapre, hapost, ?_, trimLeftRev_end _⟩
  · rw [List.append_assoc, ← hmid]
    exact hpre
  · apply eq_false_of_not_true
    intro hs
    obtain ⟨r, hr, hp⟩ := (startsWithSpace_iff _).1 hs
    have h2 : startsWithSpace (trimLeft s) = true := by
      rw [startsWithSpace_iff]
      exact ⟨r, hr, by rw [hmid]; exact hasPrefix_append _ _ _ hp⟩
    rw [trimLeft_start] at h2
    cases h2

theorem trimSpace_eq_nil_iff (s : Bytes) : trimSpace s = [] ↔ AllSpace s := by
  constructor
  · intro h
    obtain ⟨pre, post, hs, hpre, hpost, _, _⟩ := trimSpace_spec s
    rw [h, List.append_nil] at hs
    rw [hs]
    exact hpre.append hpost
  · intro h
    unfold trimSpace
    rw [trimLeft_allSpace h]
    rfl

/-! ## Printing and reading a sequence id -/

theorem digitChar_toNat : ∀ d < 10, (Nat.digitChar d).toNat = 48 + d := by
  decide

theorem parseDigits_toDigitsCore (fuel n : Nat) (ds : List Char) (h : n < fuel) :
    parseDigits ((Nat.toDigitsCore 10 fuel n ds).map Char.toNat) 0 =
      parseDigits (ds.map Char.toNat) n := by
  induction fuel generalizing n ds with
  | zero => omega
  | succ fuel ih =>
    have hd : (Nat.digitChar (n % 10)).toNat = 48 + n % 10 :=
      digitChar_toNat (n % 10) (Nat.mod_lt _ (by decide))
    unfold Nat.toDigitsCore
    by_cases h0 : n / 10 = 0
    · simp only [h0, if_true, List.map_cons, parseDigits, hd]
      have : 48 ≤ 48 + n % 10 ∧ 48 + n % 10 ≤ 57 := by omega
      rw [if_pos this]
      congr 1
      omega
    · simp only [h0, if_false]
      rw [ih (n / 10) _ (by omega)]
      simp only [List.map_cons, parseDigits, hd]
      have : 48 ≤ 48 + n % 10 ∧ 48 + n % 10 ≤ 57 := by omega
      rw [if_pos this]
      congr 1
      omega

theorem parseDigits_digits (n : Nat) :
    parseDigits ((Nat.toDigits 10 n).map Char.toNat) 0 = some n := by
  unfold Nat.toDigits
  rw [parseDigits_toDigitsCore (n + 1) n [] (by omega)]
  rfl

theorem parseDigits_isDigit {bs : Bytes} {acc v : Nat} (h : parseDigits bs acc = some v) :
    ∀ b ∈ bs, 48 ≤ b ∧ b ≤ 57 := by
  induction bs generalizing acc with
  | nil => simp
  | cons x xs ih =>
    unfold parseDigits at h
    split_ifs at h with hx
    intro b hb
    rcases List.mem_cons.1 hb with rfl | hb
    · exact hx
    · exact ih h b hb

theorem digits_isDigit (n : Nat) : ∀ b ∈ (Nat.toDigits 10 n).map Char.toNat, 48 ≤ b ∧ b ≤ 57 :=
  parseDigits_isDigit (parseDigits_digits n)

theorem digits_ne_nil (n : Nat) : (Nat.toDigits 10 n).map Char.toNat ≠ [] := by
  intro h
  have hp := parseDigits_digits n
  rw [h] at hp
  simp only [parseDigits, Option.some.injEq] at hp
  subst hp
  revert h
  decide

theorem parseNat_digits (n : Nat) : parseNat ((Nat.toDigits 10 n).map Char.toNat) = some n := by
  unfold parseNat
  rw [if_neg (digits_ne_nil n)]
  exact parseDigits_digits n

theorem parseInt_formatInt (n : Int) : parseInt (formatInt n) = some n := by
  unfold formatInt parseInt
  by_cases hn : n < 0
  · have hv : -(n.natAbs : Int) = n := by omega
    simp only [hn, if_true, List.head?_cons, List.tail_cons, parseNat_digits, Option.map_some',
      hv]
  · have hne := digits_ne_nil n.natAbs
    have hdig := digits_isDigit n.natAbs
    have hhead : ((Nat.toDigits 10 n.natAbs).map Char.toNat).head? ≠ some 45 := by
      intro hh
      cases hl : (Nat.toDigits 10 n.natAbs).map Char.toNat with
      | nil => exact hne hl
      | cons x xs =>
        rw [hl] at hh hdig
        simp only [List.head?_cons, Option.some.injEq] at hh
        have := hdig x (List.mem_cons_self _ _)
        omega
    have hv : (n.natAbs : Int) = n := by omega
    simp only [hn, if_false, hhead, parseNat_digits, Option.map_some', hv]

theorem formatInt_no_newline (n : Int) : 10 ∉ formatInt n := by
  unfold formatInt
  intro h
  have hdig := digits_isDigit n.natAbs
  split_ifs at h
  · rcases List.mem_cons.1 h with h | h
    · omega
    · have := hdig 10 h
      omega
  · have := hdig 10 h
    omega

/-! ## The lines of the byte stream -/

theorem splitLinesAux_newline (cur a b : Bytes) :
    splitLinesAux cur (a ++ 10 :: b) = splitLinesAux cur (a ++ [10]) ++ splitLines b := by
  induction a generalizing cur with
  | nil => simp [splitLinesAux, splitLines]
  | cons x a ih =>
    simp only [List.cons_append, splitLinesAux, List.append_eq]
    split_ifs
    · rw [ih]; rfl
    · rw [ih]

theorem splitLinesAux_head (v : Bytes) :
    ∃ h t, ∀ cur, splitLinesAux cur (v ++ [10]) = (cur ++ h) :: t := by
  induction v with
  | nil => exact ⟨[], [], fun cur => by simp [splitLinesAux]⟩
  | cons x v ih =>
    obtain ⟨h, t, hv⟩ := ih
    by_cases hx : x = 10
    · exact ⟨[], splitLinesAux [] (v ++ [10]), fun cur => by simp [splitLinesAux, hx]⟩
    · refine ⟨x :: h, t, fun cur => ?_⟩
      simp only [List.cons_append, splitLinesAux, hx, if_false, List.append_eq]
      rw [hv]
      simp

theorem splitLinesAux_no_newline (cur p s : Bytes) (hp : 10 ∉ p) :
    splitLinesAux cur (p ++ s) = splitLinesAux (cur ++ p) s := by
  induction p generalizing cur with
  | nil => simp
  | cons x p ih =>
    have hx : x ≠ 10 := fun h => hp (by simp [h])
    have hp2 : 10 ∉ p := fun h => hp (List.mem_cons_of_mem _ h)
    simp only [List.cons_append, splitLinesAux, hx, if_false, List.append_eq]
    rw [ih _ hp2]
    simp

theorem splitLines_single (p : Bytes) (hp : 10 ∉ p) : splitLines (p ++ [10]) = [p] := by
  unfold splitLines
  rw [splitLinesAux_no_newline [] p [10] hp]
  simp [splitLinesAux]

theorem outputIds_stdout_cons (l : Line) (ls : List Line) :
    outputIds (stdout (l :: ls)) = outputIds (l.render ++ [10]) ++ outputIds (stdout ls) := by
  unfold outputIds splitLines
  rw [stdout, splitLinesAux_newline, List.filterMap_append]
  rfl

theorem parseSeqLine_seq (n : Int) : parseSeqLine (goString ".I " ++ formatInt n) = some n := by
  have hg : goString ".I " = [46, 73, 32] := by decide
  unfold parseSeqLine
  rw [hg]
  simp only [List.cons_append, List.nil_append, hasPrefix, decide_True, Bool.and_self, if_true,
    List.drop_succ_cons, List.drop_zero]
  exact parseInt_formatInt n

theorem parseSeqLine_other (p rest : Bytes) (hp : hasPrefix (goString ".I ") p = false)
    (hlen : p.length = 3) : parseSeqLine (p ++ rest) = none := by
  have hg : goString ".I " = [46, 73, 32] := by decide
  unfold parseSeqLine
  rw [hg] at hp ⊢
  match p, hlen with
  | [a, b, c], _ =>
    simp only [hasPrefix, Bool.and_true, Bool.and_eq_false_imp, decide_eq_true_eq,
      decide_eq_false_iff_not] at hp
    simp only [List.cons_append, List.nil_append, hasPrefix, Bool.and_true]
    split_ifs with h
    · simp only [Bool.and_eq_true, decide_eq_true_eq] at h
      obtain ⟨h1, h2, h3⟩ := h
      exact absurd h3.symm (hp h1.symm h2.symm)
    · rfl

theorem outputIds_free (p value : Bytes) (hp : hasPrefix (goString ".I ") p = false)
    (hlen : p.length = 3) (hn : 10 ∉ p) (hc : cleanText value = true) :
    outputIds (p ++ value ++ [10]) = [] := by
  obtain ⟨h, t, hv⟩ := splitLinesAux_head value
  have hclean : ∀ l ∈ h :: t, parseSeqLine l = none := by
    unfold cleanText splitLines at hc
    rw [hv []] at hc
    intro l hl
    have := (List.all_eq_true.1 hc) l (by simpa using hl)
    simpa using this
  unfold outputIds splitLines
  rw [List.append_assoc, splitLinesAux_no_newline [] p _ hn, hv]
  simp only [List.nil_append, List.filterMap_cons, parseSeqLine_other p h hp hlen]
  rw [List.filterMap_eq_nil_iff]
  intro l hl
  exact hclean l (List.mem_cons_of_mem _ hl)

theorem outputIds_text (text : Bytes) (hc : cleanText text = true) :
    outputIds (text ++ [10]) = [] := by
  unfold outputIds
  rw [List.filterMap_eq_nil_iff]
  intro l hl
  have := (List.all_eq_true.1 hc) l hl
  simpa using this

/-- The `.I <n>` lines one clean line contributes to the stream. -/
theorem outputIds_line (l : Line) (hc : l.clean = true) :
    outputIds (l.render ++ [10]) = seqIds [l] := by
  cases l with
  | I n =>
    have hnl : 10 ∉ goString ".I " ++ formatInt n := by
      intro h
      rcases List.mem_append.1 h with h | h
      · revert h; decide
      · exact formatInt_no_newline n h
    simp only [Line.render, outputIds, splitLines_single _ hnl, List.filterMap_cons,
      parseSeqLine_seq, List.filterMap_nil, seqIds]
  | L code =>
    have hnl : 10 ∉ goString ".L " ++ formatInt code := by
      intro h
      rcases List.mem_append.1 h with h | h
      · revert h; decide
      · exact formatInt_no_newline _ h
    simp only [Line.render, outputIds, splitLines_single _ hnl, List.filterMap_cons,
      parseSeqLine_other (goString ".L ") _ (by decide) (by decide), List.filterMap_nil, seqIds]
  | D value => exact outputIds_free (goString ".D ") value (by decide) (by decide) (by decide) hc
  | F value => exact outputIds_free (goString ".F ") value (by decide) (by decide) (by decide) hc
  | S value => exact outputIds_free (goString ".S ") value (by decide) (by decide) (by decide) hc
  | M => decide
  | body text => exact outputIds_text text hc
  | blank => decide

/-- When the free text of every line is clean, the `.I <n>` lines of the
stream are the lines the statement of source line 142 wrote. -/
theorem outputIds_stdout (out : List Line) (hc : ∀ l ∈ out, l.clean = true) :
    outputIds (stdout out) = seqIds out := by
  induction out with
  | nil => rfl
  | cons l ls ih =>
    rw [outputIds_stdout_cons, outputIds_line l (hc l (List.mem_cons_self _ _)),
      ih (fun x hx => hc x (List.mem_cons_of_mem _ hx))]
    have := seqIds_append [l] ls
    simpa using this.symm

/-! ## Clean runs -/

theorem recordLines_clean (msg : Message) (n : Int) (text : Bytes)
    (hh : (msg.headers.filterMap headerLine).all Line.clean = true)
    (ht : cleanText text = true) : ∀ l ∈ recordLines msg n text, l.clean = true := by
  intro l hl
  unfold recordLines at hl
  simp only [List.mem_append, List.mem_cons, List.mem_singleton, List.mem_map,
    List.not_mem_nil, or_false] at hl
  rcases hl with ((rfl | ⟨c, _, rfl⟩) | hl) | rfl | rfl | rfl
  · rfl
  · rfl
  · exact (List.all_eq_true.1 hh) l hl
  · rfl
  · exact ht
  · rfl

theorem processPart_clean (limit : Int) (msg : Message) (st : State) (part : MessagePart)
    (hh : (msg.headers.filterMap headerLine).all Line.clean = true)
    (hp : cleanText (trimSpace (decodeString part.data).1) = true)
    (hst : ∀ l ∈ st.out, l.clean = true) :
    ∀ l ∈ (processPart limit msg st part).out, l.clean = true := by
  by_cases h : st.count < limit
  · cases hb : hasBody part with
    | false =>
      rw [processPart_noBody limit msg st part h hb]
      intro l hl
      rcases List.mem_append.1 hl with hl | hl
      · exact hst l hl
      · rw [List.mem_singleton.1 hl]; rfl
    | true =>
      cases hc : hasCategory msg with
      | false =>
        rw [processPart_noCategory limit msg st part h hb hc]
        intro l hl
        rcases List.mem_append.1 hl with hl | hl
        · exact hst l hl
        · rw [List.mem_singleton.1 hl]; rfl
      | true =>
        rw [processPart_record limit msg st part h hb hc]
        intro l hl
        rcases List.mem_append.1 hl with hl | hl
        · exact hst l hl
        · exact recordLines_clean msg _ _ hh hp l hl
  · rw [processPart_gate limit msg st part h]
    exact hst

theorem foldl_processPart_clean (limit : Int) (msg : Message) (parts : List MessagePart)
    (st : State) (hh : (msg.headers.filterMap headerLine).all Line.clean = true)
    (hp : ∀ p ∈ parts, cleanText (trimSpace (decodeString p.data).1) = true)
    (hst : ∀ l ∈ st.out, l.clean = true) :
    ∀ l ∈ (parts.foldl (processPart limit msg) st).out, l.clean = true := by
  induction parts generalizing st with
  | nil => exact hst
  | cons p ps ih =>
    rw [List.foldl_cons]
    exact ih _ (fun q hq => hp q (List.mem_cons_of_mem _ hq))
      (processPart_clean limit msg st p hh (hp p (List.mem_cons_self _ _)) hst)

theorem processMessage_clean (limit : Int) (msg : Message) (st : State)
    (hm : cleanMessage msg = true) (hst : ∀ l ∈ st.out, l.clean = true) :
    ∀ l ∈ (processMessage limit msg st).out, l.clean = true := by
  unfold cleanMessage at hm
  rw [Bool.and_eq_true] at hm
  unfold processMessage
  exact foldl_processPart_clean limit msg msg.parts _ hm.1
    (fun p hp => (List.all_eq_true.1 hm.2) p hp) hst

theorem processMessages_clean (limit : Int) (msgs : List (Option Message)) (st : State)
    (hm : ∀ msg, some msg ∈ msgs → cleanMessage msg = true)
    (hst : ∀ l ∈ st.out, l.clean = true) :
    ∀ l ∈ (processMessages limit msgs st).out, l.clean = true := by
  induction msgs generalizing st with
  | nil => exact hst
  | cons m ms ih =>
    cases m with
    | none => exact hst
    | some msg =>
      rw [processMessages]
      exact ih _ (fun x hx => hm x (List.mem_cons_of_mem _ hx))
        (processMessage_clean limit msg _ (hm msg (List.mem_cons_self _ _)) hst)

theorem cleanPages_cons {r : ListResponse} {rs : List (Option ListResponse)}
    (h : cleanPages (some r :: rs) = true) :
    (∀ msg, some msg ∈ r.messages → cleanMessage msg = true) ∧ cleanPages rs = true := by
  unfold cleanPages at h
  rw [List.all_cons, Bool.and_eq_true] at h
  refine ⟨fun msg hmsg => ?_, h.2⟩
  have := (List.all_eq_true.1 h.1) (some msg) hmsg
  simpa using this

theorem runPages_clean (limit : Int) (pages : List (Option ListResponse)) (st : State)
    (hp : cleanPages pages = true) (hst : ∀ l ∈ st.out, l.clean = true) :
    ∀ l ∈ (runPages limit pages st).out, l.clean = true := by
  induction pages generalizing st with
  | nil => exact hst
  | cons r rs ih =>
    cases r with
    | none => exact hst
    | some r =>
      obtain ⟨hm, hrest⟩ := cleanPages_cons hp
      have h1 : ∀ l ∈ (afterPage limit r st).out, l.clean = true :=
        processMessages_clean limit r.messages _ hm hst
      rw [runPages_cons]
      split_ifs
      · exact h1
      · exact h1
      · exact ih _ hrest h1

/-- In a clean run the `.I <n>` lines of the stream are the lines the
statement of source line 142 wrote. -/
theorem run_outputIds (start limit : Int) (pages : List (Option ListResponse))
    (hp : cleanPages pages = true) :
    outputIds (stdout (run start limit pages).out) = seqIds (run start limit pages).out :=
  outputIds_stdout _ (runPages_clean limit pages _ hp (by simp [initState]))

/-! ## Complete records -/

theorem recordCount_append (a b : List Line) :
    recordCount (a ++ b) = recordCount a + recordCount b := by
  induction a with
  | nil => simp [recordCount]
  | cons l ls ih =>
    cases l <;> simp [recordCount, ih]
    omega

theorem recordCount_map_L (cs : List Nat) : recordCount (cs.map Line.L) = 0 := by
  induction cs with
  | nil => rfl
  | cons c cs ih => simpa [recordCount] using ih

theorem recordCount_headerLines (hs : List Header) :
    recordCount (hs.filterMap headerLine) = 0 := by
  induction hs with
  | nil => rfl
  | cons h hs ih =>
    rw [List.filterMap_cons]
    cases hl : headerLine h with
    | none => simpa using ih
    | some l =>
      have := headerLine_isHeader hl
      cases l <;> simp [Line.isHeader] at this <;> simpa [recordCount] using ih

theorem recordCount_recordLines (msg : Message) (n : Int) (text : Bytes) :
    recordCount (recordLines msg n text) = 1 := by
  simp [recordLines, recordCount_append, recordCount, recordCount_map_L,
    recordCount_headerLines]

theorem processPart_records (limit : Int) (msg : Message) (st : State) (part : MessagePart)
    (hcat : hasBody part = true → hasCategory msg = true)
    (hst : recordCount st.out = (seqIds st.out).length) :
    recordCount (processPart limit msg st part).out =
      (seqIds (processPart limit msg st part).out).length := by
  by_cases h : st.count < limit
  · cases hb : hasBody part with
    | false =>
      rw [processPart_noBody limit msg st part h hb]
      simp [State.println, recordCount_append, seqIds_append, recordCount, seqIds, hst]
    | true =>
      rw [processPart_record limit msg st part h hb (hcat hb)]
      simp [recordCount_append, seqIds_append, recordCount_recordLines, seqIds_recordLines,
        hst]
  · rw [processPart_gate limit msg st part h]
    exact hst

theorem foldl_processPart_records (limit : Int) (msg : Message) (parts : List MessagePart)
    (st : State) (hcat : ∀ p ∈ parts, hasBody p = true → hasCategory msg = true)
    (hst : recordCount st.out = (seqIds st.out).length) :
    recordCount (parts.foldl (processPart limit msg) st).out =
      (seqIds (parts.foldl (processPart limit msg) st).out).length := by
  induction parts generalizing st with
  | nil => exact hst
  | cons p ps ih =>
    rw [List.foldl_cons]
    exact ih _ (fun q hq => hcat q (List.mem_cons_of_mem _ hq))
      (processPart_records limit msg st p (hcat p (List.mem_cons_self _ _)) hst)

theorem processMessages_records (limit : Int) (msgs : List (Option Message)) (st : State)
    (hcat : ∀ msg, some msg ∈ msgs → ∀ p ∈ msg.parts, hasBody p = true →
      hasCategory msg = true)
    (hst : recordCount st.out = (seqIds st.out).length) :
    recordCount (processMessages limit msgs st).out =
      (seqIds (processMessages limit msgs st).out).length := by
  induction msgs generalizing st with
  | nil => exact hst
  | cons m ms ih =>
    cases m with
    | none => exact hst
    | some msg =>
      rw [processMessages]
      refine ih _ (fun x hx => hcat x (List.mem_cons_of_mem _ hx)) ?_
      unfold processMessage
      exact foldl_processPart_records limit msg msg.parts _
        (hcat msg (List.mem_cons_self _ _)) hst

theorem allCategorised_cons {r : ListResponse} {rs : List (Option ListResponse)}
    (h : allCategorised (some r :: rs) = true) :
    (∀ msg, some msg ∈ r.messages → ∀ p ∈ msg.parts, hasBody p = true →
      hasCategory msg = true) ∧ allCategorised rs = true := by
  unfold allCategorised at h
  rw [List.all_cons, Bool.and_eq_true] at h
  refine ⟨fun msg hmsg p hp hb => ?_, h.2⟩
  have := (List.all_eq_true.1 h.1) (some msg) hmsg
  simp only [Bool.or_eq_true, List.all_eq_true, Bool.not_eq_true'] at this
  rcases this with hno | hc
  · rw [hno p hp] at hb
    cases hb
  · exact hc

theorem runPages_records (limit : Int) (pages : List (Option ListResponse)) (st : State)
    (hp : allCategorised pages = true)
    (hst : recordCount st.out = (seqIds st.out).length) :
    recordCount (runPages limit pages st).out =
      (seqIds (runPages limit pages st).out).length := by
  induction pages generalizing st with
  | nil => exact hst
  | cons r rs ih =>
    cases r with
    | none => exact hst
    | some r =>
      obtain ⟨hm, hrest⟩ := allCategorised_cons hp
      have h1 : recordCount (afterPage limit r st).out =
          (seqIds (afterPage limit r st).out).length :=
        processMessages_records limit r.messages _ hm hst
      rw [runPages_cons]
      split_ifs
      · exact h1
      · exact h1
      · exact ih _ hrest h1

/-! ## The claims -/

theorem blankBodyMessage_trimmed (p : MessagePart) (hp : p ∈ blankBodyMessage.parts)
    (hid : p.partId = goString "0") : trimSpace (decodeString p.data).1 = [] := by
  revert p
  decide

/-- C1, as stated, fails: one message whose body is 126 lines `.I 1` makes the fetch
loop of `main` write 127 lines of the form `.I <n>` to the output, more than the limit
125, although one record only is written. -/
theorem output_lines_counterexample :
    (outputIds (stdout (main [some ⟨[some manyLinesMessage], []⟩]).out)).length = 127 ∧
    ¬ (outputIds (stdout (main [some ⟨[some manyLinesMessage], []⟩]).out)).length ≤ 125 ∧
    seqIds (main [some ⟨[some manyLinesMessage], []⟩]).out = [100] := by
  decide

/-- C1, amended: for every run of the fetch loop of `main` (start 100, limit 125) the
number of `.I` lines written by the statement of source line 142, one per record begun,
is at most the limit 125; and when no body and no `Date`, `From` or `Subject` value of a
fetched message holds a line of the form `.I <n>`, these are all the `.I <n>` lines of
the output, so that their number is at most the limit. -/
theorem emitted_records_le_limit (pages : List (Option ListResponse)) :
    (seqIds (main pages).out).length ≤ 125 ∧
    (cleanPages pages = true → (outputIds (stdout (main pages).out)).length ≤ 125) := by
  have hseq : (seqIds (main pages).out).length ≤ 125 := by
    obtain ⟨k, hc, ho, hb⟩ := run_advances 100 125 pages
    unfold main
    rw [ho]
    simp only [initState, seqIds, List.nil_append, List.length_map, List.length_range]
    rcases hb with h | h
    · omega
    · rw [hc] at h
      simp only [initState] at h
      omega
  refine ⟨hseq, fun hclean => ?_⟩
  unfold main at hseq ⊢
  rw [run_outputIds 100 125 pages hclean]
  exact hseq

/-- The two pages of qualifying messages, which are clean. -/
theorem emitted_records_le_limit_witness :
    (outputIds (stdout (main twoPages).out)).length ≤ 125 :=
  (emitted_records_le_limit twoPages).2 (by decide)

/-- C2: the message with labels `CATEGORY_SOCIAL`, `INBOX`, one part `"0"` encoding
`"Hello "` and headers `Date: Mon`, `From: a@b.com`, `Subject: Hi`, processed at sequence
counter 100 below the limit, writes exactly the lines `.I 100`, `.L 3`, `.D Mon`,
`.F a@b.com`, `.S Hi`, `.M`, `Hello` and an empty line, and the counter becomes 101. -/
theorem scenario_record (limit size : Int) (st : State) (hc : st.count = 100)
    (hl : 100 < limit) :
    ∃ ls : List Line,
      (processMessage limit (scenarioMessage size) st).out = st.out ++ ls ∧
      ls.map Line.render =
        [goString ".I 100", goString ".L 3", goString ".D Mon", goString ".F a@b.com",
         goString ".S Hi", goString ".M", goString "Hello", goString ""] ∧
      (processMessage limit (scenarioMessage size) st).count = 101 := by
  have hb : hasBody ⟨goString "0", goString "SGVsbG8g"⟩ = true := by decide
  have hcat : hasCategory (scenarioMessage size) = true := by
    dsimp only [hasCategory, scenarioMessage]
    decide
  have ht : trimSpace (decodeString (goString "SGVsbG8g")).1 = goString "Hello" := by decide
  have hlt : ({ st with total := wrapInt64 (st.total + (scenarioMessage size).sizeEstimate) } :
      State).count < limit := by
    simp only [hc]
    exact hl
  have hrun := processPart_record limit (scenarioMessage size) _ _ hlt hb hcat
  rw [← processMessage_single limit (scenarioMessage size) st _ rfl] at hrun
  refine ⟨recordLines (scenarioMessage size) 100 (goString "Hello"), ?_, ?_, ?_⟩
  · rw [hrun]
    simp only [hc, ht]
  · dsimp only [recordLines, scenarioMessage]
    decide
  · rw [hrun]
    simp only [hc]
    rfl

/-- The scenario at the first state of `main`: counter 100, limit 125. -/
theorem scenario_record_witness :
    ∃ ls : List Line,
      (processMessage 125 (scenarioMessage 2048) (initState 100)).out =
        (initState 100).out ++ ls ∧
      ls.map Line.render =
        [goString ".I 100", goString ".L 3", goString ".D Mon", goString ".F a@b.com",
         goString ".S Hi", goString ".M", goString "Hello", goString ""] ∧
      (processMessage 125 (scenarioMessage 2048) (initState 100)).count = 101 :=
  scenario_record 125 2048 (initState 100) rfl (by decide)

/-- C3, as stated, fails: a message whose body is `Hi`, newline, `.I 999`, followed by
the scenario message, gives an output whose `.I <n>` lines carry, in order, the ids 100,
999, 101. -/
theorem output_ids_counterexample :
    outputIds (stdout (main [some ⟨[some embeddedIdMessage, some (scenarioMessage 2048)],
      []⟩]).out) = [100, 999, 101] := by
  decide

/-- C3, amended: for every start value, limit and run, the sequence ids on the `.I` lines
written by the statement of source line 142, in output order, are exactly `start,
start + 1, start + 2, ...`, without gap or repeat; and when no body and no `Date`, `From`
or `Subject` value of a fetched message holds a line of the form `.I <n>`, the ids read
from the `.I <n>` lines of the output are that same sequence. -/
theorem seqIds_contiguous (start limit : Int) (pages : List (Option ListResponse)) :
    seqIds (run start limit pages).out =
      (List.range (seqIds (run start limit pages).out).length).map
        (fun (i : Nat) => start + (i : Int)) ∧
    (cleanPages pages = true →
      outputIds (stdout (run start limit pages).out) =
        (List.range (outputIds (stdout (run start limit pages).out)).length).map
          (fun (i : Nat) => start + (i : Int))) := by
  have hseq : seqIds (run start limit pages).out =
      (List.range (seqIds (run start limit pages).out).length).map
        (fun (i : Nat) => start + (i : Int)) := by
    obtain ⟨k, _, ho, _⟩ := run_advances start limit pages
    have hlen : (seqIds (run start limit pages).out).length = k := by
      rw [ho]
      simp [initState, seqIds]
    rw [hlen, ho]
    simp [initState, seqIds]
  refine ⟨hseq, fun hclean => ?_⟩
  rw [run_outputIds start limit pages hclean]
  exact hseq

/-- The two pages of qualifying messages with start 100 and limit 125. -/
theorem seqIds_contiguous_witness :
    outputIds (stdout (run 100 125 twoPages).out) =
      (List.range (outputIds (stdout (run 100 125 twoPages).out)).length).map
        (fun (i : Nat) => (100 : Int) + (i : Int)) :=
  (seqIds_contiguous 100 125 twoPages).2 (by decide)

/-- C4, as stated, fails: the message with the only label `INBOX` and a body, processed
at counter 100 below the limit, writes the line `.I 100` and no blank line, and the counter
becomes 101. -/
theorem uncategorised_message_counterexample :
    (processMessage 125 inboxOnlyMessage (initState 100)).out = [Line.I 100] ∧
    (processMessage 125 inboxOnlyMessage (initState 100)).out ≠ [Line.blank] ∧
    (processMessage 125 inboxOnlyMessage (initState 100)).count = 101 := by
  decide

/-- C4, amended: a part `"0"` with a non-empty body of a message none of whose label ids
contains a category marker, processed below the limit, writes no `.L`, `.D`, `.F`, `.S`,
`.M` or body line and no blank line either: no line it writes is anything but an `.I`
line. -/
theorem uncategorised_part_lines (limit : Int) (msg : Message) (st : State)
    (part : MessagePart) (h : st.count < limit) (hb : hasBody part = true)
    (hc : hasCategory msg = false) :
    ∃ ls : List Line,
      (processPart limit msg st part).out = st.out ++ ls ∧ ∀ l ∈ ls, l.isI = true := by
  rw [processPart_noCategory limit msg st part h hb hc]
  exact ⟨[Line.I st.count], rfl, by simp [Line.isI]⟩

/-- The part of the `INBOX`-only message at counter 100, limit 125. -/
theorem uncategorised_part_lines_witness :
    ∃ ls : List Line,
      (processPart 125 inboxOnlyMessage (initState 100)
        ⟨goString "0", goString "SGVsbG8g"⟩).out = (initState 100).out ++ ls ∧
      ∀ l ∈ ls, l.isI = true :=
  uncategorised_part_lines 125 inboxOnlyMessage (initState 100)
    ⟨goString "0", goString "SGVsbG8g"⟩ (by decide) (by decide) (by decide)

/-- C5, as stated, fails: the label ids `CATEGORY_UPDATES`, `CATEGORY_FORUMS` give the
line `.L 4` and then the line `.L 0`. -/
theorem label_order_counterexample :
    labelCodes (processMessage 125 twoCategoryMessage (initState 100)).out = [4, 0] ∧
    labelCodes (processMessage 125 twoCategoryMessage (initState 100)).out ≠ [0, 4] := by
  decide

/-- C5, amended: for a part `"0"` with a non-empty body processed below the limit, the
`.L` lines written are one per label id that contains a category marker, in the order of
the label ids of the message; the code on each is that of the first marker, in the order
Forums(0), Personal(1), Promotions(2), Social(3), Updates(4), that the label id
contains. -/
theorem label_lines_in_label_order (limit : Int) (msg : Message) (st : State)
    (part : MessagePart) (h : st.count < limit) (hb : hasBody part = true) :
    labelCodes (processPart limit msg st part).out =
      labelCodes st.out ++ msg.labelIds.filterMap firstMarker := by
  cases hc : hasCategory msg with
  | false =>
    rw [processPart_noCategory limit msg st part h hb hc]
    have hnil : msg.labelIds.filterMap firstMarker = [] := by
      rw [hasCategory_iff] at hc
      simpa using hc
    simp [labelCodes_append, labelCodes, hnil]
  | true =>
    rw [processPart_record limit msg st part h hb hc]
    simp [recordLines, labelCodes_append, labelCodes, labelCodes_map_L,
      labelCodes_headerLines]

/-- The part of the message labelled Updates, Forums at counter 100, limit 125. -/
theorem label_lines_in_label_order_witness :
    labelCodes (processPart 125 twoCategoryMessage (initState 100)
        ⟨goString "0", goString "SGVsbG8g"⟩).out =
      labelCodes (initState 100).out ++ twoCategoryMessage.labelIds.filterMap firstMarker :=
  label_lines_in_label_order 125 twoCategoryMessage (initState 100)
    ⟨goString "0", goString "SGVsbG8g"⟩ (by decide) (by decide)

/-- C6, as stated, fails: the headers `Subject: Hi`, `Date: Mon`, `Date: Tue` give the
lines `.S Hi`, `.D Mon`, `.D Tue`: two `.D` lines, after the `.S` line. -/
theorem header_lines_counterexample :
    (processMessage 125 repeatedDateMessage (initState 100)).out =
      [Line.I 100, Line.L 3, Line.S (goString "Hi"), Line.D (goString "Mon"),
       Line.D (goString "Tue"), Line.M, Line.body (goString "Hello"), Line.blank] := by
  decide

/-- C6, amended: for an emitted record the header loop writes, between the `.L` lines
and `.M`, one line per header whose name is exactly `Date`, `From` or `Subject` (`.D`,
`.F`, `.S` with the value of that header), in the order of the header list; a repeated
name gives several lines and a field with no such header gives none. -/
theorem header_lines_in_header_order (limit : Int) (msg : Message) (st : State)
    (part : MessagePart) (h : st.count < limit) (hb : hasBody part = true)
    (hc : hasCategory msg = true) :
    (processPart limit msg st part).out =
      st.out ++ ([Line.I st.count] ++ (msg.labelIds.filterMap firstMarker).map Line.L ++
        msg.headers.filterMap headerLine ++
        [Line.M, Line.body (trimSpace (decodeString part.data).1), Line.blank]) := by
  rw [processPart_record limit msg st part h hb hc]
  rfl

/-- The part of the message with a repeated `Date` header at counter 100, limit 125. -/
theorem header_lines_in_header_order_witness :
    (processPart 125 repeatedDateMessage (initState 100)
        ⟨goString "0", goString "SGVsbG8g"⟩).out =
      (initState 100).out ++ ([Line.I (initState 100).count] ++
        (repeatedDateMessage.labelIds.filterMap firstMarker).map Line.L ++
        repeatedDateMessage.headers.filterMap headerLine ++
        [Line.M, Line.body (trimSpace (decodeString (goString "SGVsbG8g")).1), Line.blank]) :=
  header_lines_in_header_order 125 repeatedDateMessage (initState 100)
    ⟨goString "0", goString "SGVsbG8g"⟩ (by decide) (by decide) (by decide)

/-- C7, as stated, fails: with start 0, limit 1 and two pages of two qualifying messages
each, one record is written, yet both messages of the first page are fetched and both
sizes (10 and 20) are added to the total; the second page is not listed. -/
theorem mid_page_stop_counterexample :
    seqIds (run 0 1 twoPages).out = [0] ∧
    (run 0 1 twoPages).fetched = 2 ∧
    (run 0 1 twoPages).fetched ≠ 1 ∧
    (run 0 1 twoPages).total = 30 ∧
    (run 0 1 twoPages).listed = 1 := by
  decide

/-- C7, amended: the limit is checked for the parts of a message and after a page, not
between the messages of a page.  A message met when the counter has reached the limit
writes nothing and leaves the counter alone, but it is fetched and its size is added to
the total; and when the counter has reached the limit at the end of a page whose `Get`
calls all succeed, the run ends there: no later page is listed, every id of that page has
been fetched and the total includes the sizes of all its messages. -/
theorem limit_checked_after_page (limit : Int) (r : ListResponse)
    (rest : List (Option ListResponse)) (st : State)
    (hok : r.messages.all Option.isSome = true)
    (hlim : limit ≤
      (processMessages limit r.messages { st with listed := st.listed + 1 }).count) :
    runPages limit (some r :: rest) st =
      processMessages limit r.messages { st with listed := st.listed + 1 } ∧
    (runPages limit (some r :: rest) st).listed = st.listed + 1 ∧
    (runPages limit (some r :: rest) st).fetched = st.fetched + r.messages.length ∧
    (runPages limit (some r :: rest) st).total = addSizes st.total r.messages ∧
    ∀ (msg : Message) (s : State), limit ≤ s.count →
      processMessage limit msg s =
        { s with total := wrapInt64 (s.total + msg.sizeEstimate) } := by
  have hrun : runPages limit (some r :: rest) st = afterPage limit r st := by
    rw [runPages_cons]
    split_ifs with h1 h2
    · rfl
    · rfl
    · exact absurd (Or.inr hlim) h2
  obtain ⟨h1, h2, _, _⟩ := afterPage_frame limit r st
  refine ⟨hrun, ?_, ?_, ?_, fun msg s hs => processMessage_reached limit msg s hs⟩
  · rw [hrun, h2]
  · rw [hrun]
    exact processMessages_fetched limit r.messages _ hok
  · rw [hrun, h1]

/-- The two pages of two qualifying messages with start 0 and limit 1. -/
theorem limit_checked_after_page_witness :
    runPages 1 twoPages (initState 0) =
      processMessages 1 [some (scenarioMessage 10), some (scenarioMessage 20)]
        { initState 0 with listed := (initState 0).listed + 1 } ∧
    (runPages 1 twoPages (initState 0)).listed = (initState 0).listed + 1 ∧
    (runPages 1 twoPages (initState 0)).fetched =
      (initState 0).fetched + [some (scenarioMessage 10), some (scenarioMessage 20)].length ∧
    (runPages 1 twoPages (initState 0)).total =
      addSizes (initState 0).total [some (scenarioMessage 10), some (scenarioMessage 20)] ∧
    ∀ (msg : Message) (s : State), (1 : Int) ≤ s.count →
      processMessage 1 msg s =
        { s with total := wrapInt64 (s.total + msg.sizeEstimate) } :=
  limit_checked_after_page 1
    ⟨[some (scenarioMessage 10), some (scenarioMessage 20)], goString "page2"⟩
    [some ⟨[some (scenarioMessage 30), some (scenarioMessage 40)], []⟩] (initState 0)
    (by decide) (by decide)

/-- C8, as stated, fails: from a mailbox of 125 qualifying messages the fetch loop of
`main` (start 100, limit 125) writes 25 records, numbered 100 to 124, not 125 records
numbered 100 to 224. -/
theorem relative_limit_counterexample :
    qualifying fullMailbox = 125 ∧
    recordCount (main fullMailbox).out = 25 ∧
    seqIds (main fullMailbox).out = (List.range 25).map (fun (i : Nat) => 100 + (i : Int)) ∧
    outputIds (stdout (main fullMailbox).out) =
      (List.range 25).map (fun (i : Nat) => 100 + (i : Int)) ∧
    recordCount (main fullMailbox).out ≠ 125 := by
  decide

/-- C8, amended: the limit bounds the sequence id itself, not the number of records.  For
every start `s` and limit `L` with `s ≤ L`, a run in which every fetched message with a
body has a category label and whose reachable pages hold at least `L - s` qualifying
bodies (non-empty part `"0"` body, at least one category label) writes exactly `L - s`
complete records, whose `.I` lines are numbered `s` to `L - 1`, and ends with the counter
at `L`; when moreover no body or header value holds a line of the form `.I <n>`, the ids
read from the output are `s` to `L - 1`.  With `s = 100` and `L = 125` these are 25
records numbered 100 to 124. -/
theorem limit_bounds_sequence_id (start limit : Int) (pages : List (Option ListResponse))
    (hle : start ≤ limit) (hq : limit - start ≤ qualifying pages)
    (hcat : allCategorised pages = true) :
    recordCount (run start limit pages).out = (limit - start).toNat ∧
    seqIds (run start limit pages).out =
      (List.range (limit - start).toNat).map (fun (i : Nat) => start + (i : Int)) ∧
    (run start limit pages).count = limit ∧
    (cleanPages pages = true →
      outputIds (stdout (run start limit pages).out) =
        (List.range (limit - start).toNat).map (fun (i : Nat) => start + (i : Int))) := by
  have hav : limit - start ≤ available pages :=
    le_trans hq (by exact_mod_cast qualifying_le pages)
  have hcount : (run start limit pages).count = limit := by
    unfold run
    rw [runPages_count limit pages (initState start) rfl]
    simp only [initState, advance]
    omega
  obtain ⟨k, hc, ho, _⟩ := run_advances start limit pages
  have hk : k = (limit - start).toNat := by
    rw [hcount] at hc
    simp only [initState] at hc
    omega
  subst hk
  have hids : seqIds (run start limit pages).out =
      (List.range (limit - start).toNat).map (fun (i : Nat) => start + (i : Int)) := by
    rw [ho]
    simp [initState, seqIds]
  have hrec : recordCount (run start limit pages).out =
      (seqIds (run start limit pages).out).length :=
    runPages_records limit pages (initState start) hcat rfl
  refine ⟨?_, hids, hcount, fun hclean => ?_⟩
  · rw [hrec, hids]
    simp
  · rw [run_outputIds start limit pages hclean]
    exact hids

/-- The mailbox of 125 qualifying messages, all categorised and clean, with start 100 and
limit 125. -/
theorem limit_bounds_sequence_id_witness :
    recordCount (run 100 125 fullMailbox).out = ((125 : Int) - 100).toNat ∧
    seqIds (run 100 125 fullMailbox).out =
      (List.range ((125 : Int) - 100).toNat).map (fun (i : Nat) => (100 : Int) + (i : Int)) ∧
    (run 100 125 fullMailbox).count = 125 ∧
    outputIds (stdout (run 100 125 fullMailbox).out) =
      (List.range ((125 : Int) - 100).toNat).map (fun (i : Nat) => (100 : Int) + (i : Int)) :=
  ⟨(limit_bounds_sequence_id 100 125 fullMailbox (by decide) (by decide) (by decide)).1,
   (limit_bounds_sequence_id 100 125 fullMailbox (by decide) (by decide) (by decide)).2.1,
   (limit_bounds_sequence_id 100 125 fullMailbox (by decide) (by decide) (by decide)).2.2.1,
   (limit_bounds_sequence_id 100 125 fullMailbox (by decide) (by decide) (by decide)).2.2.2
     (by decide)⟩

/-- C9, as stated, fails: the data `SGVsbG8h!` does not decode (the returned error is
non-nil), yet the bytes decoded before the error, `Hello!`, are the body of a record that
is written with sequence id 100, and the counter becomes 101. -/
theorem decode_error_counterexample :
    (decodeString (goString "SGVsbG8h!")).2 = true ∧
    (decodeString (goString "SGVsbG8h!")).1 = goString "Hello!" ∧
    (processMessage 125 brokenDataMessage (initState 100)).out =
      [Line.I 100, Line.L 3, Line.D (goString "Mon"), Line.F (goString "a@b.com"),
       Line.S (goString "Hi"), Line.M, Line.body (goString "Hello!"), Line.blank] ∧
    (processMessage 125 brokenDataMessage (initState 100)).count = 101 := by
  decide

/-- C9, amended: the decoding error of a part `"0"` is ignored and the body is the
trimmed text of the bytes decoded before the error.  When that text is empty (as for the
data `!SGVsbG8h`) the part writes a blank line only and the sequence id is not consumed;
when it is not empty and the message has a category label, a record with that text as its
body is written and the sequence id is consumed. -/
theorem decode_error_keeps_decoded_bytes (limit : Int) (msg : Message) (st : State)
    (part : MessagePart) (h : st.count < limit) (hid : part.partId = goString "0")
    (_herr : (decodeString part.data).2 = true) :
    (trimSpace (decodeString part.data).1 = [] →
      processPart limit msg st part = st.println Line.blank) ∧
    (trimSpace (decodeString part.data).1 ≠ [] → hasCategory msg = true →
      processPart limit msg st part =
        { st with
          out := st.out ++ ([Line.I st.count] ++
            (msg.labelIds.filterMap firstMarker).map Line.L ++
            msg.headers.filterMap headerLine ++
            [Line.M, Line.body (trimSpace (decodeString part.data).1), Line.blank]),
          count := st.count + 1 }) := by
  constructor
  · intro ht
    exact processPart_noBody limit msg st part h (by simp [hasBody, ht])
  · intro ht hc
    exact processPart_record limit msg st part h ((hasBody_iff part).2 ⟨hid, ht⟩) hc

/-- The data `!SGVsbG8h` (nothing decoded) and `SGVsbG8h!` (`Hello!` decoded) at counter
100, limit 125. -/
theorem decode_error_keeps_decoded_bytes_witness :
    (processPart 125 brokenStartMessage (initState 100)
        ⟨goString "0", goString "!SGVsbG8h"⟩ =
      (initState 100).println Line.blank) ∧
    (processPart 125 brokenDataMessage (initState 100)
        ⟨goString "0", goString "SGVsbG8h!"⟩ =
      { initState 100 with
        out := (initState 100).out ++ ([Line.I (initState 100).count] ++
          (brokenDataMessage.labelIds.filterMap firstMarker).map Line.L ++
          brokenDataMessage.headers.filterMap headerLine ++
          [Line.M, Line.body (trimSpace (decodeString (goString "SGVsbG8h!")).1),
           Line.blank]),
        count := (initState 100).count + 1 }) :=
  ⟨(decode_error_keeps_decoded_bytes 125 brokenStartMessage (initState 100)
      ⟨goString "0", goString "!SGVsbG8h"⟩ (by decide) rfl (by decide)).1 (by decide),
   (decode_error_keeps_decoded_bytes 125 brokenDataMessage (initState 100)
      ⟨goString "0", goString "SGVsbG8h!"⟩ (by decide) rfl (by decide)).2
      (by decide) (by decide)⟩

/-- C10: a message each of whose parts `"0"` decodes to white space only (in particular
a message without a part `"0"`) writes blank lines only, so no `.I`, `.L`, `.D`, `.F`,
`.S`, `.M` or body line, and leaves the sequence id unchanged; and every body line a
message writes is not empty and is the decoded text of one of its parts `"0"` without a
leading and a trailing run of white-space runes, itself neither beginning nor ending with
a white-space rune. -/
theorem body_is_trimmed_and_required (limit : Int) (msg : Message) (st : State) :
    ((∀ p ∈ msg.parts, p.partId = goString "0" → AllSpace (decodeString p.data).1) →
      (∃ k, (processMessage limit msg st).out = st.out ++ List.replicate k Line.blank) ∧
      (processMessage limit msg st).count = st.count) ∧
    ∃ ls : List Line,
      (processMessage limit msg st).out = st.out ++ ls ∧
      ∀ text, Line.body text ∈ ls →
        text ≠ [] ∧ startsWithSpace text = false ∧ endsWithSpace text = false ∧
        ∃ p ∈ msg.parts, p.partId = goString "0" ∧
          ∃ pre post, (decodeString p.data).1 = pre ++ text ++ post ∧
            AllSpace pre ∧ AllSpace post := by
  obtain ⟨ls, ho, hb, hn⟩ := foldl_processPart_lines limit msg msg.parts
    { st with total := wrapInt64 (st.total + msg.sizeEstimate) }
  constructor
  · intro hall
    have hall2 : ∀ p ∈ msg.parts, hasBody p = false := by
      intro p hp
      cases hx : hasBody p with
      | false => rfl
      | true =>
        obtain ⟨hid, ht⟩ := (hasBody_iff p).1 hx
        exact absurd ((trimSpace_eq_nil_iff _).2 (hall p hp hid)) ht
    obtain ⟨⟨k, hk⟩, hc⟩ := hn hall2
    exact ⟨⟨k, by rw [← hk]; exact ho⟩, hc⟩
  · refine ⟨ls, ho, ?_⟩
    intro text ht
    obtain ⟨p, hp, hbody, htext⟩ := hb text ht
    obtain ⟨hid, hne⟩ := (hasBody_iff p).1 hbody
    obtain ⟨pre, post, hs, hpre, hpost, hstart, hend⟩ :=
      trimSpace_spec (decodeString p.data).1
    rw [← htext] at hs hstart hend hne
    exact ⟨hne, hstart, hend, p, hp, hid, pre, post, hs, hpre, hpost⟩

/-- The message whose part `"0"` holds white space only, and the message whose body has
white space on both sides, at counter 100, limit 125. -/
theorem body_is_trimmed_and_required_witness :
    ((∃ k, (processMessage 125 blankBodyMessage (initState 100)).out =
        (initState 100).out ++ List.replicate k Line.blank) ∧
      (processMessage 125 blankBodyMessage (initState 100)).count = (initState 100).count) ∧
    (∃ ls : List Line,
      (processMessage 125 paddedBodyMessage (initState 100)).out = (initState 100).out ++ ls ∧
      ∀ text, Line.body text ∈ ls →
        text ≠ [] ∧ startsWithSpace text = false ∧ endsWithSpace text = false ∧
        ∃ p ∈ paddedBodyMessage.parts, p.partId = goString "0" ∧
          ∃ pre post, (decodeString p.data).1 = pre ++ text ++ post ∧
            AllSpace pre ∧ AllSpace post) ∧
    (processMessage 125 paddedBodyMessage (initState 100)).out =
      [Line.I 100, Line.L 3, Line.D (goString "Mon"), Line.F (goString "a@b.com"),
       Line.S (goString "Hi"), Line.M, Line.body (goString "Hello"), Line.blank] :=
  ⟨(body_is_trimmed_and_required 125 blankBodyMessage (initState 100)).1
      (fun p _ _ => (trimSpace_eq_nil_iff _).1
        (blankBodyMessage_trimmed p (by assumption) (by assumption))),
   (body_is_trimmed_and_required 125 paddedBodyMessage (initState 100)).2,
   by decide⟩

end Getter
